import Mathlib

/-!
Verification development for the milky chess engine (crates milky_bitboard and
milky_chess).  The Rust sources are shallowly embedded: machine integers u64 /
u32 / u8 become Nat with explicit truncation modulo 2 ^ 64 where Rust wraps,
i32 scores become Int, fallible / panicking code paths become Option, and the
mutable engine state becomes explicit state passing over Lean structures that
mirror the Rust structs field by field.
-/

namespace Milky

/-! Bit primitives, from milky_bitboard (BitBoard is a u64 with wrapping
multiplication; shifts discard bits above bit 63). -/

def U64_MASK : Nat := 2 ^ 64 - 1

/-- Bitwise complement of a u64 value, Rust `!x`. -/
def not64 (x : Nat) : Nat := x ^^^ U64_MASK

/-- Rust `x << n` on u64: bits shifted above bit 63 are discarded. -/
def shl64 (x n : Nat) : Nat := (x <<< n) % 2 ^ 64

/-- Wrapping u64 multiplication, used by the magic-bitboard indexing. -/
def mul64 (x y : Nat) : Nat := x * y % 2 ^ 64

/-- BitBoard::set_bit. -/
def setBit (b s : Nat) : Nat := b ||| (1 <<< s)

/-- BitBoard::clear_bit, `self &= !(1 << square)`. -/
def clearBit (b s : Nat) : Nat := b &&& not64 (1 <<< s)

/-- BitBoard::get_bit, `self & (1 << square)`. -/
def getBit (b s : Nat) : Nat := b &&& (1 <<< s)

/-- BitBoard::is_attacked: the intersection with the other board is nonempty. -/
def isAttacked (a b : Nat) : Bool := a &&& b != 0

/-- Helper for u64::trailing_zeros: counts to at most the given fuel. -/
def tzAux : Nat → Nat → Nat
  | _, 0 => 0
  | b, fuel + 1 => if b % 2 = 1 then 0 else tzAux (b / 2) fuel + 1

/-- BitBoard::trailing_zeros; on an empty board u64::trailing_zeros is 64,
which transmutes to Square::OffBoard (index 64). -/
def trailingZeros (b : Nat) : Nat := tzAux b 64

/-- Rust u64::count_ones. -/
def countOnes (b : Nat) : Nat :=
  if h : b = 0 then 0 else b % 2 + countOnes (b / 2)
decreasing_by exact Nat.div_lt_self (Nat.pos_of_ne_zero h) one_lt_two

/-- Iterator for BitBoard: repeatedly yield the lowest set bit and clear it.
A u64 has at most 64 set bits, so 64 steps of fuel enumerate them all. -/
def bbListAux : Nat → Nat → List Nat
  | _, 0 => []
  | b, fuel + 1 =>
    if b = 0 then []
    else
      let s := trailingZeros b
      s :: bbListAux (clearBit b s) fuel

/-- The squares of a bitboard in ascending index order (BitBoard Iterator). -/
def bbList (b : Nat) : List Nat := bbListAux b 64

/-! Squares, from milky_bitboard::square.  Square indices run 0 (a8) to
63 (h1); Square::OffBoard is represented by its enum discriminant 64. -/

def OFF_BOARD : Nat := 64

/-- Square::is_available. -/
def squareAvailable (s : Nat) : Bool := s != OFF_BOARD

/-- Square::one_forward, a checked subtraction of 8. -/
def oneForward (s : Nat) : Option Nat :=
  if 8 ≤ s then some (s - 8) else none

/-- Square::one_backward: adds 8, None past H1 (index 63). -/
def oneBackward (s : Nat) : Option Nat :=
  if s + 8 ≤ 63 then some (s + 8) else none

/-- Square::mirror. -/
def mirrorSquare (s : Nat) : Nat := (7 - s / 8) * 8 + s % 8

inductive Rank where
  | first | second | third | fourth | fifth | sixth | seventh | eighth
deriving DecidableEq, Repr

/-- Square::is_on_rank, written with the index ranges of the rank rows
(the source compares against the per-rank first and last squares). -/
def isOnRank (s : Nat) (r : Rank) : Bool :=
  match r with
  | .first => 56 ≤ s && s ≤ 63
  | .second => 48 ≤ s && s ≤ 55
  | .third => 40 ≤ s && s ≤ 47
  | .fourth => 32 ≤ s && s ≤ 39
  | .fifth => 24 ≤ s && s ≤ 31
  | .sixth => 16 ≤ s && s ≤ 23
  | .seventh => 8 ≤ s && s ≤ 15
  | .eighth => s ≤ 7

/-! Sides and pieces. -/

inductive Side where
  | white | black | both
deriving DecidableEq, Repr

/-- Side::enemy; Side::Both is unreachable!() in the source. -/
def Side.enemy : Side → Option Side
  | .white => some .black
  | .black => some .white
  | .both => none

/-- Modelled from the spec: the Pieces enum of milky_bitboard is not present
under src (the crate copy shipped there is a divergent draft without it); the
spec fixes the load-bearing ordering WP WN WB WR WQ WK BP BN BB BR BQ BK,
indexed 0..11, which is the ordering every present caller relies on.  Pieces
are therefore plain indices below.  Piece constants: -/
def WP : Nat := 0
def WN : Nat := 1
def WB : Nat := 2
def WR : Nat := 3
def WQ : Nat := 4
def WK : Nat := 5
def BP : Nat := 6
def BN : Nat := 7
def BB : Nat := 8
def BR : Nat := 9
def BQ : Nat := 10
def BK : Nat := 11

/-- Modelled from the spec: Pieces::side — White for indices 0..5, Black for
6..11. -/
def pieceSide (p : Nat) : Side := if p < 6 then .white else .black

/-- Modelled from the spec: Pieces::kind maps a piece to its class 0..5
(rows of the 6-row MVV_LVA matrix are indexed by attacker piece class). -/
def pieceKind (p : Nat) : Nat := p % 6

/-! Move encoding, from milky_bitboard::moves.  A move is a packed u32:
bits 0..5 source, 6..11 target, 12..15 piece, 16..19 promoted piece
(the PromotedPieces enum discriminant), 20 capture, 21 double push,
22 en passant, 23 castling. -/

/-- Move::new. -/
def mkMove (source target piece promoted flags : Nat) : Nat :=
  source ||| (target <<< 6) ||| (piece <<< 12) ||| (promoted <<< 16) ||| (flags <<< 20)

def moveSource (m : Nat) : Nat := m &&& 0x3F

def moveTarget (m : Nat) : Nat := (m >>> 6) &&& 0x3F

def movePiece (m : Nat) : Nat := (m >>> 12) &&& 0xF

/-- Move::promotion decodes bits 16..19 through
PromotedPieces::from_u8_unchecked, which is unreachable!() above 4. -/
def movePromotion (m : Nat) : Option Nat :=
  let v := (m >>> 16) &&& 0xF
  if v ≤ 4 then some v else none

def moveIsCapture (m : Nat) : Bool := m &&& 0x100000 != 0

def moveIsDoublePush (m : Nat) : Bool := m &&& 0x200000 != 0

def moveIsEnPassant (m : Nat) : Bool := m &&& 0x400000 != 0

def moveIsCastling (m : Nat) : Bool := m &&& 0x800000 != 0

/-- PromotedPieces discriminants: NoPromotion 0, Knight 1, Bishop 2, Rook 3,
Queen 4. -/
def NO_PROMOTION : Nat := 0

/-- PromotedPieces::is_promoting. -/
def isPromoting (promo : Nat) : Bool := promo != NO_PROMOTION

/-- PromotedPieces::into_piece; Side::Both is unreachable!(). -/
def promotedIntoPiece (promo : Nat) (side : Side) : Option Nat :=
  match promo, side with
  | 0, .white => some WP
  | 0, .black => some BP
  | 1, .white => some WN
  | 1, .black => some BN
  | 2, .white => some WB
  | 2, .black => some BB
  | 3, .white => some WR
  | 3, .black => some BR
  | 4, .white => some WQ
  | 4, .black => some BQ
  | _, _ => none

/-- MoveFlags bits (before the shift by 20 in the move word). -/
def FLAG_CAPTURE : Nat := 1
def FLAG_DOUBLE_PUSH : Nat := 2
def FLAG_EN_PASSANT : Nat := 4
def FLAG_CASTLING : Nat := 8

/-! Attack generation, from milky_chess lib.rs.  The leaper tables
(PAWN_ATTACKS, KNIGHT_ATTACKS, KING_ATTACKS) are filled at startup with the
compute_* functions below and read back unchanged, so the embedding uses the
compute functions directly in place of the table lookups. -/

def EMPTY_A_FILE : Nat := 0xFEFEFEFEFEFEFEFE
def EMPTY_H_FILE : Nat := 0x7F7F7F7F7F7F7F7F
def EMPTY_GH_FILE : Nat := 0x3F3F3F3F3F3F3F3F
def EMPTY_AB_FILE : Nat := 0xFCFCFCFCFCFCFCFC

/-- compute_pawn_attacks.  Side::Both is unreachable!() in the source and is
never passed by any caller; it is given the empty board here. -/
def computePawnAttacks (side : Side) (square : Nat) : Nat :=
  let bitboard := shl64 1 square
  match side with
  | .white => ((bitboard >>> 7) &&& EMPTY_A_FILE) ||| ((bitboard >>> 9) &&& EMPTY_H_FILE)
  | .black => ((shl64 bitboard 7) &&& EMPTY_H_FILE) ||| ((shl64 bitboard 9) &&& EMPTY_A_FILE)
  | .both => 0

/-- compute_knight_attacks. -/
def computeKnightAttacks (square : Nat) : Nat :=
  let bitboard := shl64 1 square
  let a := (bitboard >>> 17) &&& EMPTY_H_FILE
  let a := a ||| ((bitboard >>> 15) &&& EMPTY_A_FILE)
  let a := a ||| ((bitboard >>> 10) &&& EMPTY_GH_FILE)
  let a := a ||| ((bitboard >>> 6) &&& EMPTY_AB_FILE)
  let a := a ||| ((shl64 bitboard 17) &&& EMPTY_A_FILE)
  let a := a ||| ((shl64 bitboard 15) &&& EMPTY_H_FILE)
  let a := a ||| ((shl64 bitboard 10) &&& EMPTY_AB_FILE)
  let a := a ||| ((shl64 bitboard 6) &&& EMPTY_GH_FILE)
  a

/-- compute_king_attacks. -/
def computeKingAttacks (square : Nat) : Nat :=
  let bitboard := shl64 1 square
  let a := (bitboard >>> 7) &&& EMPTY_A_FILE
  let a := a ||| (bitboard >>> 8)
  let a := a ||| ((bitboard >>> 9) &&& EMPTY_H_FILE)
  let a := a ||| ((shl64 bitboard 7) &&& EMPTY_H_FILE)
  let a := a ||| (shl64 bitboard 8)
  let a := a ||| ((shl64 bitboard 9) &&& EMPTY_A_FILE)
  let a := a ||| ((shl64 bitboard 1) &&& EMPTY_A_FILE)
  let a := a ||| ((bitboard >>> 1) &&& EMPTY_H_FILE)
  a

/-- One ray of the while loops of compute_bishop_attacks / compute_rook_attacks:
walk from (r, f) in direction (dr, df) while on the board, set each square,
stop after a blocker.  A ray has at most 7 steps; fuel 8 is ample. -/
def rayAttacks (blockers : Nat) (dr df : Int) : Int → Int → Nat → Nat
  | _, _, 0 => 0
  | r, f, fuel + 1 =>
    if 0 ≤ r ∧ r < 8 ∧ 0 ≤ f ∧ f < 8 then
      let sq := (r * 8 + f).toNat
      let bit := 1 <<< sq
      if bit &&& blockers ≠ 0 then bit
      else bit ||| rayAttacks blockers dr df (r + dr) (f + df) fuel
    else 0

/-- compute_bishop_attacks: diagonal ray walks inclusive of the blocker. -/
def computeBishopAttacks (square : Nat) (blockers : Nat) : Nat :=
  let r : Int := (square : Int) / 8
  let f : Int := (square : Int) % 8
  rayAttacks blockers 1 1 (r + 1) (f + 1) 8 |||
  rayAttacks blockers (-1) 1 (r - 1) (f + 1) 8 |||
  rayAttacks blockers 1 (-1) (r + 1) (f - 1) 8 |||
  rayAttacks blockers (-1) (-1) (r - 1) (f - 1) 8

/-- compute_rook_attacks: straight ray walks inclusive of the blocker. -/
def computeRookAttacks (square : Nat) (blockers : Nat) : Nat :=
  let r : Int := (square : Int) / 8
  let f : Int := (square : Int) % 8
  rayAttacks blockers 0 1 r (f + 1) 8 |||
  rayAttacks blockers 1 0 (r + 1) f 8 |||
  rayAttacks blockers (-1) 0 (r - 1) f 8 |||
  rayAttacks blockers 0 (-1) r (f - 1) 8

/-- One ray of compute_bishop_blockers: interior squares only. -/
def rayBishopBlockers (dr df : Int) : Int → Int → Nat → Nat
  | _, _, 0 => 0
  | r, f, fuel + 1 =>
    if 1 ≤ r ∧ r < 7 ∧ 1 ≤ f ∧ f < 7 then
      (1 <<< (r * 8 + f).toNat) ||| rayBishopBlockers dr df (r + dr) (f + df) fuel
    else 0

/-- compute_bishop_blockers: the relevant-occupancy mask for a bishop. -/
def computeBishopBlockers (square : Nat) : Nat :=
  let r : Int := (square : Int) / 8
  let f : Int := (square : Int) % 8
  rayBishopBlockers 1 1 (r + 1) (f + 1) 8 |||
  rayBishopBlockers (-1) 1 (r - 1) (f + 1) 8 |||
  rayBishopBlockers 1 (-1) (r + 1) (f - 1) 8 |||
  rayBishopBlockers (-1) (-1) (r - 1) (f - 1) 8

/-- One ray of compute_rook_blockers: skips the edge square of the ray. -/
def rayRookBlockers (dr df : Int) : Int → Int → Nat → Nat
  | _, _, 0 => 0
  | r, f, fuel + 1 =>
    if 0 ≤ r ∧ r < 8 ∧ 0 ≤ f ∧ f < 8 then
      if (dr ≠ 0 ∧ (r = 0 ∨ r = 7)) ∨ (df ≠ 0 ∧ (f = 0 ∨ f = 7)) then 0
      else (1 <<< (r * 8 + f).toNat) ||| rayRookBlockers dr df (r + dr) (f + df) fuel
    else 0

/-- compute_rook_blockers: the relevant-occupancy mask for a rook. -/
def computeRookBlockers (square : Nat) : Nat :=
  let r : Int := (square : Int) / 8
  let f : Int := (square : Int) % 8
  rayRookBlockers 0 1 r (f + 1) 8 |||
  rayRookBlockers 1 0 (r + 1) f 8 |||
  rayRookBlockers (-1) 0 (r - 1) f 8 |||
  rayRookBlockers 0 (-1) r (f - 1) 8

/-- get_bishop_attacks (board.rs): the magic lookup
attacks[sq][((occ and mask) * magic) >> (64 - bits)].  init_slider_piece_attacks
stores compute_bishop_attacks(sq, subset) at the magic index of every subset of
the mask, and the shipped magic numbers are collision free, so the lookup for
occupancy occ denotes compute_bishop_attacks(sq, occ and mask). -/
def getBishopAttacks (square : Nat) (occupancy : Nat) : Nat :=
  computeBishopAttacks square (occupancy &&& computeBishopBlockers square)

/-- get_rook_attacks (board.rs), modelled like getBishopAttacks. -/
def getRookAttacks (square : Nat) (occupancy : Nat) : Nat :=
  computeRookAttacks square (occupancy &&& computeRookBlockers square)

/-- get_queen_attacks (board.rs). -/
def getQueenAttacks (square : Nat) (occupancy : Nat) : Nat :=
  getBishopAttacks square occupancy ||| getRookAttacks square occupancy

/-- CASTLING_RIGHTS per-square AND mask (lib.rs); squares outside 0..63 are
never used as indices. -/
def CASTLING_RIGHTS : List Nat :=
  [7, 15, 15, 15, 3, 15, 15, 11,
   15, 15, 15, 15, 15, 15, 15, 15,
   15, 15, 15, 15, 15, 15, 15, 15,
   15, 15, 15, 15, 15, 15, 15, 15,
   15, 15, 15, 15, 15, 15, 15, 15,
   15, 15, 15, 15, 15, 15, 15, 15,
   15, 15, 15, 15, 15, 15, 15, 15,
   13, 15, 15, 15, 12, 15, 15, 14]

def castlingRightsAt (s : Nat) : Nat := CASTLING_RIGHTS.getD s 15

/-! Zobrist hashing, from milky_chess::zobrist.  The random key tables are
drawn once at program init from a deterministic PRNG and are immutable
afterwards; their concrete values never matter to the properties below, so
they are carried as an arbitrary parameter.  The mutable field
Zobrist::position travels with the board state (Position.key below). -/

structure ZTables where
  piecesTable : Nat → Nat → Nat
  enPassant : Nat → Nat
  castlingRights : Nat → Nat
  sideKey : Nat

/-! Board state, from milky_chess::board.  BoardState is split in two layers:
Position holds exactly the fields that make_move / undo_move read and write
(pieces, occupancies, side_to_move, en_passant, castling_rights, snapshots,
fifty_move_counter) together with zobrist.position, which the same functions
update; BoardState adds ply, repetition_table and repetition_index, which are
only ever touched by the callers (see claim C9). -/

structure Snapshot where
  boards : Nat → Nat
  occupancies : Side → Nat
  sideToMove : Side
  enPassant : Nat
  castlingRights : Nat
  positionKey : Nat
  fiftyMoveCounter : Nat

structure Position where
  pieces : Nat → Nat
  occupancies : Side → Nat
  sideToMove : Side
  enPassant : Nat
  castlingRights : Nat
  snapshots : List Snapshot
  fiftyMoveCounter : Nat
  key : Nat

/-- The snapshot make_move pushes: every Position field paired with the
current Zobrist key. -/
def mkSnapshot (p : Position) : Snapshot :=
  { boards := p.pieces
    occupancies := p.occupancies
    sideToMove := p.sideToMove
    enPassant := p.enPassant
    castlingRights := p.castlingRights
    positionKey := p.key
    fiftyMoveCounter := p.fiftyMoveCounter }

/-- BoardState::snapshot_board. -/
def snapshotBoard (p : Position) : Position :=
  { p with snapshots := mkSnapshot p :: p.snapshots }

/-- BoardState::undo_move: pops the top snapshot and restores every field;
panics (None) on an empty stack.  The Rust function returns the restored
Zobrist key and the caller assigns it to zobrist.position; since the key lives
inside Position here, the assignment is folded into the restore. -/
def undoMove (p : Position) : Option Position :=
  match p.snapshots with
  | [] => none
  | snapshot :: rest =>
    some { pieces := snapshot.boards
           occupancies := snapshot.occupancies
           sideToMove := snapshot.sideToMove
           enPassant := snapshot.enPassant
           castlingRights := snapshot.castlingRights
           snapshots := rest
           fiftyMoveCounter := snapshot.fiftyMoveCounter
           key := snapshot.positionKey }

/-- BoardState::is_square_attacked.  Side::Both is unreachable!() in the
source and no caller passes it (the guarded call sites return None first);
it yields false here.  Squares outside 0..63 would index out of the attack
tables and panic; call sites with a possibly-off-board square are guarded. -/
def isSquareAttacked (p : Position) (square : Nat) (side : Side) : Bool :=
  let info : Option (Side × Nat × Nat × Nat × Nat × Nat × Nat) :=
    match side with
    | .white => some (.black, p.pieces WP, p.pieces WN, p.pieces WK,
        p.pieces WB, p.pieces WR, p.pieces WQ)
    | .black => some (.white, p.pieces BP, p.pieces BN, p.pieces BK,
        p.pieces BB, p.pieces BR, p.pieces BQ)
    | .both => none
  match info with
  | none => false
  | some (pawnSide, pawnB, knightB, kingB, bishopB, rookB, queenB) =>
    if isAttacked (computePawnAttacks pawnSide square) pawnB then true
    else if isAttacked (computeKnightAttacks square) knightB then true
    else if isAttacked (computeKingAttacks square) kingB then true
    else
      let occupancy := p.occupancies .both
      if isAttacked (getBishopAttacks square occupancy) bishopB then true
      else if isAttacked (getRookAttacks square occupancy) rookB then true
      else if isAttacked (getQueenAttacks square occupancy) queenB then true
      else false

inductive MoveKind where
  | allMoves | captures
deriving DecidableEq, Repr

/-- Capture scan of make_move: walk the enemy piece range, clear the first
board with a bit on the target square, XOR its key out, and break. -/
def captureScan (Z : ZTables) (target : Nat) :
    List Nat → (Nat → Nat) → Nat → ((Nat → Nat) × Nat)
  | [], pieces, key => (pieces, key)
  | piece :: rest, pieces, key =>
    if getBit (pieces piece) target != 0 then
      (Function.update pieces piece (clearBit (pieces piece) target),
       key ^^^ Z.piecesTable piece target)
    else captureScan Z target rest pieces key

/-- White occupancy rebuild range 0..6 and black range 6..12
(Pieces::white_pieces_range / black_pieces_range). -/
def whitePieceList : List Nat := [WP, WN, WB, WR, WQ, WK]
def blackPieceList : List Nat := [BP, BN, BB, BR, BQ, BK]

def orBoards (pieces : Nat → Nat) (l : List Nat) : Nat :=
  l.foldl (fun acc piece => acc ||| pieces piece) 0

/-- The enemy piece range the capture scan walks (unreachable!() on Both). -/
def captureRange (side : Side) : Option (List Nat) :=
  match side with
  | .white => some blackPieceList
  | .black => some whitePieceList
  | .both => none

/-- The moving side's own pawn board index (unreachable!() on Both). -/
def promoPawnPiece (side : Side) : Option Nat :=
  match side with
  | .white => some WP
  | .black => some BP
  | .both => none

/-- The enemy pawn board index for en passant (unreachable!() on Both). -/
def epPawnPiece (side : Side) : Option Nat :=
  match side with
  | .white => some BP
  | .black => some WP
  | .both => none

/-- The square behind the target from the mover's view: the en-passant
victim square, also the en-passant square after a double push. -/
def epCaptureSquare (side : Side) (t : Nat) : Option Nat :=
  match side with
  | .white => oneBackward t
  | .black => oneForward t
  | .both => none

/-- The rook relocation of the castling step of make_move, keyed by the king
target square: G1, C1, G8, C8 map to (rook piece, rook source, rook target);
any other target is the unreachable!() arm. -/
def castleRookMove (t : Nat) : Option (Nat × Nat × Nat) :=
  match t with
  | 62 => some (WR, 63, 61)  -- G1: white castles king side, H1 -> F1
  | 58 => some (WR, 56, 59)  -- C1: white castles queen side, A1 -> D1
  | 6 => some (BR, 7, 5)     -- G8: black castles king side, H8 -> F8
  | 2 => some (BR, 0, 1)     -- C8: black castles queen side, A8 -> D8
  | _ => none

/-- Capture step of make_move: scan the enemy range and take the target. -/
def captureStep (Z : ZTables) (side : Side) (mv target : Nat)
    (pieces : Nat → Nat) (key : Nat) : Option ((Nat → Nat) × Nat) :=
  if moveIsCapture mv then
    (captureRange side).bind fun range =>
      some (captureScan Z target range pieces key)
  else some (pieces, key)

/-- Promotion step of make_move: swap the pawn on the target square for the
promoted piece. -/
def promoStep (Z : ZTables) (side : Side) (promo target : Nat)
    (pieces : Nat → Nat) (key : Nat) : Option ((Nat → Nat) × Nat) :=
  if isPromoting promo then
    (promoPawnPiece side).bind fun pawnSide =>
      (promotedIntoPiece promo side).bind fun promotedPiece =>
        let pieces := Function.update pieces pawnSide
          (clearBit (pieces pawnSide) target)
        let pieces := Function.update pieces promotedPiece
          (setBit (pieces promotedPiece) target)
        some (pieces, key ^^^ Z.piecesTable pawnSide target ^^^
          Z.piecesTable promotedPiece target)
  else some (pieces, key)

/-- En-passant step of make_move: remove the enemy pawn behind the target. -/
def epStep (Z : ZTables) (side : Side) (mv target : Nat)
    (pieces : Nat → Nat) (key : Nat) : Option ((Nat → Nat) × Nat) :=
  if moveIsEnPassant mv then
    (epPawnPiece side).bind fun pawnSide =>
      (epCaptureSquare side target).bind fun square =>
        some (Function.update pieces pawnSide (clearBit (pieces pawnSide) square),
              key ^^^ Z.piecesTable pawnSide square)
  else some (pieces, key)

/-- Double-push step of make_move: record the new en-passant square (the
default OFF_BOARD otherwise). -/
def dpStep (Z : ZTables) (side : Side) (mv target : Nat) (key : Nat) :
    Option (Nat × Nat) :=
  if moveIsDoublePush mv then
    (epCaptureSquare side target).bind fun sq =>
      some (sq, key ^^^ Z.enPassant sq)
  else some (OFF_BOARD, key)

/-- Castling step of make_move: relocate the rook. -/
def castleStep (Z : ZTables) (mv target : Nat) (pieces : Nat → Nat) (key : Nat) :
    Option ((Nat → Nat) × Nat) :=
  if moveIsCastling mv then
    (castleRookMove target).bind fun rpc =>
      some (Function.update pieces rpc.1
              (setBit (clearBit (pieces rpc.1) rpc.2.1) rpc.2.2),
            key ^^^ Z.piecesTable rpc.1 rpc.2.1 ^^^ Z.piecesTable rpc.1 rpc.2.2)
  else some (pieces, key)

/-- Steps 2..9 of make_move (milky_chess::moves): move the piece on its own
board, run the capture scan, apply promotion, en passant, the en-passant key
bookkeeping, double push, the castling rook move and the castling-rights
update, XORing the Zobrist key along; returns the updated piece boards, the
new en-passant square, the new castling rights and the updated key.  None
models the unreachable!() and unwrap panics on malformed inputs.  The
source's straight-line block is factored into the named steps above, bound
in the source's order. -/
def makeMoveCore (Z : ZTables) (pos : Position) (mv : Nat) :
    Option ((Nat → Nat) × Nat × Nat × Nat) :=
  let source := moveSource mv
  let target := moveTarget mv
  let piece := movePiece mv
  let pieces := Function.update pos.pieces piece
    (setBit (clearBit (pos.pieces piece) source) target)
  let key := pos.key ^^^ Z.piecesTable piece source ^^^ Z.piecesTable piece target
  (captureStep Z pos.sideToMove mv target pieces key).bind fun pk1 =>
    (movePromotion mv).bind fun promo =>
      (promoStep Z pos.sideToMove promo target pk1.1 pk1.2).bind fun pk2 =>
        (epStep Z pos.sideToMove mv target pk2.1 pk2.2).bind fun pk3 =>
          let key := if squareAvailable pos.enPassant then
              pk3.2 ^^^ Z.enPassant pos.enPassant
            else pk3.2
          (dpStep Z pos.sideToMove mv target key).bind fun ek =>
            (castleStep Z mv target pk3.1 ek.2).bind fun pk4 =>
              let key := pk4.2 ^^^ Z.castlingRights pos.castlingRights
              let castling := pos.castlingRights &&& castlingRightsAt source
                &&& castlingRightsAt target
              some (pk4.1, ek.1, castling, key ^^^ Z.castlingRights castling)

/-- The king board that make_move checks after flipping the side: the side
that just moved, now the non-side-to-move. -/
def moverKingPiece (newSide : Side) : Option Nat :=
  match newSide with
  | .white => some BK
  | .black => some WK
  | .both => none

/-- Steps 1..11 of make_move: push the snapshot, run makeMoveCore, rebuild
the occupancies from the piece boards, flip the side to move and XOR the side
key.  The result is the applied position before the legality check. -/
def makeMoveApplied (Z : ZTables) (pos0 : Position) (mv : Nat) : Option Position := do
  let pos := snapshotBoard pos0
  let (pieces, enPassant, castling, key) ← makeMoveCore Z pos mv
  let occWhite := orBoards pieces whitePieceList
  let occBlack := orBoards pieces blackPieceList
  let occBoth := occWhite ||| occBlack
  let occupancies : Side → Nat := fun s =>
    match s with
    | .white => occWhite
    | .black => occBlack
    | .both => occBoth
  let newSide ← pos.sideToMove.enemy
  pure { pieces := pieces
         occupancies := occupancies
         sideToMove := newSide
         enPassant := enPassant
         castlingRights := castling
         snapshots := pos.snapshots
         fiftyMoveCounter := pos.fiftyMoveCounter
         key := key ^^^ Z.sideKey }

/-- Step 12 of make_move: locate the moving side's king as the least set bit
of its board; if the new side to move attacks it, pop the snapshot, restore
every field and report false, else report true. -/
def makeMoveAll (Z : ZTables) (pos0 : Position) (mv : Nat) : Option (Position × Bool) := do
  let applied ← makeMoveApplied Z pos0 mv
  let king ← moverKingPiece applied.sideToMove
  let kingSquare := trailingZeros (applied.pieces king)
  if kingSquare ≥ 64 then none  -- index panic: the mover has no king
  else if isSquareAttacked applied kingSquare applied.sideToMove then do
    let restored ← undoMove applied
    pure (restored, false)
  else
    pure (applied, true)

/-- make_move: MoveKind::Captures rejects non-captures without touching any
state, otherwise defers to AllMoves. -/
def makeMove (Z : ZTables) (pos : Position) (mv : Nat) (kind : MoveKind) :
    Option (Position × Bool) :=
  match kind with
  | .allMoves => makeMoveAll Z pos mv
  | .captures => if moveIsCapture mv then makeMoveAll Z pos mv else some (pos, false)

/-! Zobrist::hash_position and Milky::load_position. -/

/-- The piece loop of Zobrist::hash_position: XOR the piece-square key of
every occupied square over all twelve boards. -/
def hashBoards (Z : ZTables) (boards : Nat → Nat) : Nat :=
  (List.range 12).foldl
    (fun key piece =>
      (bbList (boards piece)).foldl
        (fun key square => key ^^^ Z.piecesTable piece square) key)
    0

/-- Zobrist::hash_position: the piece-square XOR over all occupied squares,
plus the en-passant key when set, the castling key of the current rights, and
the side key when Black is to move.  GamePosition carries exactly the board
fields the hash reads; they are passed individually here. -/
def hashPosition (Z : ZTables) (boards : Nat → Nat) (sideToMove : Side)
    (enPassant : Nat) (castlingRights : Nat) : Nat :=
  let key := hashBoards Z boards
  let key := if squareAvailable enPassant then key ^^^ Z.enPassant enPassant else key
  let key := key ^^^ Z.castlingRights castlingRights
  if sideToMove = .black then key ^^^ Z.sideKey else key

/-- FenParts as consumed by Milky::load_position (milky_fen is out of scope;
only the fields load_position reads are carried). -/
structure FenParts where
  positions : Nat → Nat
  whiteOccupancy : Nat
  blackOccupancy : Nat
  bothOccupancy : Nat
  sideToMove : Side
  enPassant : Nat
  castlingRights : Nat

/-- Milky::load_position: installs the parsed fields and recomputes
zobrist.position from scratch with hash_position.  Fields load_position does
not assign (snapshots, fifty_move_counter) keep their prior values. -/
def loadPosition (Z : ZTables) (p : Position) (fen : FenParts) : Position :=
  let occupancies : Side → Nat := fun s =>
    match s with
    | .white => fen.whiteOccupancy
    | .black => fen.blackOccupancy
    | .both => fen.bothOccupancy
  { pieces := fen.positions
    occupancies := occupancies
    sideToMove := fen.sideToMove
    enPassant := fen.enPassant
    castlingRights := fen.castlingRights
    snapshots := p.snapshots
    fiftyMoveCounter := p.fiftyMoveCounter
    key := hashPosition Z fen.positions fen.sideToMove fen.enPassant fen.castlingRights }

/-! Transposition table, from milky_chess::transposition_table. -/

def ONE_MB : Nat := 0x100000
def TT_SIZE_MB : Nat := 4
def TT_SIZE_BYTES : Nat := ONE_MB * TT_SIZE_MB

/-- size_of::<TTEntry>(): key u64 (8) + score i32 (4) + depth u8 (1) +
flag u8 (1), padded to the 8-byte alignment of the key, is 16 bytes. -/
def TT_ENTRY_SIZE : Nat := 16

def TT_ENTRY_COUNT : Nat := TT_SIZE_BYTES / TT_ENTRY_SIZE

inductive TTFlag where
  | beta | alpha | exact
deriving DecidableEq, Repr

structure TTEntry where
  key : Nat
  score : Int
  depth : Nat
  flag : TTFlag
deriving DecidableEq, Repr

def TTEntry.default : TTEntry := { key := 0, score := 0, depth := 0, flag := .beta }

/-- The entry vector, as a function from index to entry (vec of length
TT_ENTRY_COUNT in the source). -/
def TT := Nat → TTEntry

def INFINITY : Int := 50000
def MATE_UPPER_BOUND : Int := 49000
def MATE_LOWER_BOUND : Int := 48000
def MAX_PLY : Nat := 64

/-- TranspositionTable::index. -/
def ttIndex (key : Nat) : Nat := key % TT_ENTRY_COUNT

/-- TranspositionTable::get. -/
def ttGet (tt : TT) (key : Nat) (alpha beta : Int) (depth : Nat) (ply : Nat) :
    Option Int :=
  let entry := tt (ttIndex key)
  if entry.key ≠ key then none
  else if entry.depth < depth then none
  else
    let score := entry.score
    let score := if score < -MATE_LOWER_BOUND then score + (ply : Int) else score
    let score := if score > MATE_LOWER_BOUND then score - (ply : Int) else score
    match entry.flag with
    | .exact => some score
    | .alpha => if score ≤ alpha then some alpha else none
    | .beta => if score ≥ beta then some beta else none

/-- TranspositionTable::set. -/
def ttSet (tt : TT) (key : Nat) (depth : Nat) (score : Int) (flag : TTFlag)
    (ply : Nat) : TT :=
  let index := ttIndex key
  let score := if score < -MATE_LOWER_BOUND then score - (ply : Int) else score
  let score := if score > MATE_LOWER_BOUND then score + (ply : Int) else score
  Function.update tt index { key := key, depth := depth, score := score, flag := flag }

/-! The full BoardState: Position plus the caller-maintained search bookkeeping
fields (ply, repetition_table, repetition_index). -/

def MAX_REPETITIONS : Nat := 1024

structure BoardState where
  position : Position
  ply : Nat
  repetitionTable : Nat → Nat
  repetitionIndex : Nat

/-- BoardState::record_repetition. -/
def recordRepetition (b : BoardState) : BoardState :=
  let index := b.repetitionIndex + 1
  { b with repetitionIndex := index
           repetitionTable := Function.update b.repetitionTable index b.position.key }

/-- is_repetition (search.rs): the current key occurs among
repetition_table[0 .. repetition_index]. -/
def isRepetition (b : BoardState) : Bool :=
  ((List.range b.repetitionIndex).map b.repetitionTable).contains b.position.key

/-! Pseudo-legal move generation, from milky_chess::moves.  The generator
pushes encoded moves into the fixed 256-slot buffer of SearchState and records
the count; the buffer prefix of length move_count is modelled as a list, and
each generator contributes its pushes in program order. -/

def promotionOptionList : List Nat := [1, 2, 3, 4]  -- Knight, Bishop, Rook, Queen

/-- generate_pawn_moves.  Side::Both never reaches this function
(generate_moves skips every piece when side_to_move is Both) and yields no
moves here; the two_forward unwrap can never fail because the origin square
is on the double-push rank. -/
def generatePawnMoves (p : Position) (board : Nat) (piece : Nat) : List Nat :=
  match p.sideToMove with
  | .both => []
  | side =>
    let promotionRank : Rank := match side with | .white => .seventh | _ => .second
    let initialRank : Rank := match side with | .white => .second | _ => .seventh
    (bbList board).foldr (fun square acc =>
      let stepForward := match side with
        | .white => oneForward square
        | _ => oneBackward square
      match stepForward with
      | none => acc
      | some oneFwd =>
        let pushes :=
          if getBit (p.occupancies .both) oneFwd = 0 then
            let single :=
              if isOnRank square promotionRank then
                promotionOptionList.map (fun option => mkMove square oneFwd piece option 0)
              else [mkMove square oneFwd piece NO_PROMOTION 0]
            let double :=
              if isOnRank square initialRank then
                let twoFwd := match side with
                  | .white => oneForward oneFwd
                  | _ => oneBackward oneFwd
                match twoFwd with
                | none => []
                | some twoFwd =>
                  if getBit (p.occupancies .both) twoFwd = 0 then
                    [mkMove square twoFwd piece NO_PROMOTION FLAG_DOUBLE_PUSH]
                  else []
              else []
            single ++ double
          else []
        let enemyOcc := match side with
          | .white => p.occupancies .black
          | _ => p.occupancies .white
        let pawnAtt := computePawnAttacks side square
        let capts := (bbList (pawnAtt &&& enemyOcc)).foldr (fun target acc2 =>
          (if isOnRank square promotionRank then
            promotionOptionList.map (fun option =>
              mkMove square target piece option FLAG_CAPTURE)
          else [mkMove square target piece NO_PROMOTION FLAG_CAPTURE]) ++ acc2) []
        let eps :=
          if p.enPassant ≠ OFF_BOARD then
            let enPassantAttacks := pawnAtt &&& shl64 1 p.enPassant
            if enPassantAttacks != 0 then
              [mkMove square (trailingZeros enPassantAttacks) piece NO_PROMOTION
                (FLAG_EN_PASSANT ||| FLAG_CAPTURE)]
            else []
          else []
        (pushes ++ capts ++ eps) ++ acc) []

/-- generate_pre_computed_moves: used for knight, bishop, rook, queen and the
step moves of the king. -/
def generatePreComputedMoves (p : Position) (piece : Nat) (board : Nat)
    (getAttacks : Nat → Nat) : List Nat :=
  match p.sideToMove.enemy with
  | none => []
  | some enemy =>
    (bbList board).foldr (fun square acc =>
      let attacks := getAttacks square
      let occupancies := not64 (p.occupancies p.sideToMove)
      let attacks := attacks &&& occupancies
      (bbList attacks).foldr (fun target acc2 =>
        (if getBit (p.occupancies enemy) target != 0 then
          [mkMove square target piece NO_PROMOTION FLAG_CAPTURE]
        else [mkMove square target piece NO_PROMOTION 0]) ++ acc2) [] ++ acc) []

/-- generate_king_moves: the two castling emitters followed by the
precomputed king steps.  Side::Both never reaches this function. -/
def generateKingMoves (p : Position) (board : Nat) (piece : Nat) : List Nat :=
  match p.sideToMove, p.sideToMove.enemy with
  | .both, _ => []
  | _, none => []
  | side, some enemy =>
    let kingSideBit : Nat := match side with | .white => 1 | _ => 4
    let queenSideBit : Nat := match side with | .white => 2 | _ => 8
    let kingSquare : Nat := match side with | .white => 60 | _ => 4  -- E1 / E8
    let kingCastle :=
      if p.castlingRights &&& kingSideBit != 0 then
        let freeSquares : Nat × Nat := match side with
          | .white => (61, 62)  -- F1, G1
          | _ => (5, 6)         -- F8, G8
        let first := getBit (p.occupancies .both) freeSquares.1
        let second := getBit (p.occupancies .both) freeSquares.2
        let isKingAttacked := isSquareAttacked p kingSquare enemy
        let isNextAttacked := isSquareAttacked p freeSquares.1 enemy
        if first = 0 ∧ second = 0 ∧ ¬isKingAttacked ∧ ¬isNextAttacked then
          [mkMove kingSquare freeSquares.2 piece NO_PROMOTION FLAG_CASTLING]
        else []
      else []
    let queenCastle :=
      if p.castlingRights &&& queenSideBit != 0 then
        let freeSquares : Nat × Nat × Nat := match side with
          | .white => (59, 58, 57)  -- D1, C1, B1
          | _ => (3, 2, 1)          -- D8, C8, B8
        let first := getBit (p.occupancies .both) freeSquares.1
        let second := getBit (p.occupancies .both) freeSquares.2.1
        let third := getBit (p.occupancies .both) freeSquares.2.2
        let isKingAttacked := isSquareAttacked p kingSquare enemy
        let isNextAttacked := isSquareAttacked p freeSquares.1 enemy
        if first = 0 ∧ second = 0 ∧ third = 0 ∧ ¬isKingAttacked ∧ ¬isNextAttacked then
          [mkMove kingSquare freeSquares.2.1 piece NO_PROMOTION FLAG_CASTLING]
        else []
      else []
    kingCastle ++ queenCastle ++
      generatePreComputedMoves p piece board computeKingAttacks

/-- generate_moves: iterate the twelve boards in index order, skip pieces of
the wrong side, and dispatch per piece class. -/
def generateMoves (p : Position) : List Nat :=
  (List.range 12).foldr (fun idx acc =>
    let board := p.pieces idx
    (if pieceSide idx ≠ p.sideToMove then []
     else if idx = WP ∨ idx = BP then generatePawnMoves p board idx
     else if idx = WK ∨ idx = BK then generateKingMoves p board idx
     else if idx = WN ∨ idx = BN then
       generatePreComputedMoves p idx board computeKnightAttacks
     else if idx = WB ∨ idx = BB then
       generatePreComputedMoves p idx board
         (fun sq => getBishopAttacks sq (p.occupancies .both))
     else if idx = WR ∨ idx = BR then
       generatePreComputedMoves p idx board
         (fun sq => getRookAttacks sq (p.occupancies .both))
     else
       generatePreComputedMoves p idx board
         (fun sq => getQueenAttacks sq (p.occupancies .both))) ++ acc) []

/-! Search state, from milky_chess::search.  The fixed 256-slot move buffer
together with move_count is modelled as the list of its first move_count
entries. -/

structure SearchState where
  nodes : Nat
  scorePv : Bool
  followPv : Bool
  killerMoves : Nat → Nat → Nat
  historyMoves : Nat → Nat → Int
  pvTable : Nat → Nat → Nat
  pvLength : Nat → Nat
  moves : List Nat

def SearchState.new : SearchState :=
  { nodes := 0
    scorePv := false
    followPv := false
    killerMoves := fun _ _ => 0
    historyMoves := fun _ _ => 0
    pvTable := fun _ _ => 0
    pvLength := fun _ => 0
    moves := [] }

/-! Evaluation, from milky_chess::evaluate.  The pawn-structure, mobility and
king-safety refinements are commented out in the source and are therefore
absent here. -/

def ENDGAME_SCORE : Int := 518
def OPENING_SCORE_THRESHOLD : Int := 6192

/-- GamePhase with the discriminants used for indexing MATERIAL_SCORE
(Opening 0, Endgame 1). -/
inductive GamePhase where
  | opening | endgame | midgame
deriving DecidableEq, Repr

/-- Modelled from the spec: GamePhase::from_score lives in the canonical
milky_chess lib.rs, which is not the lib.rs shipped under src (that file is
an earlier monolithic draft); the spec says the phase is Opening above an
opening threshold, Endgame below an endgame threshold, and Midgame between,
with the thresholds shipped in evaluate.rs. -/
def GamePhase.fromScore (s : Int) : GamePhase :=
  if s > OPENING_SCORE_THRESHOLD then .opening
  else if s < ENDGAME_SCORE then .endgame
  else .midgame

def MATERIAL_SCORE_OPENING : List Int :=
  [82, 337, 365, 477, 1025, 12000, -82, -337, -365, -477, -1025, -12000]

def MATERIAL_SCORE_ENDGAME : List Int :=
  [94, 281, 297, 512, 936, 12000, -94, -281, -297, -512, -936, -12000]

def materialScore (phase : GamePhase) (piece : Nat) : Int :=
  match phase with
  | .opening => MATERIAL_SCORE_OPENING.getD piece 0
  | _ => MATERIAL_SCORE_ENDGAME.getD piece 0

def TAPERED_PAWN_EARLY : List Int :=
  [0, 0, 0, 0, 0, 0, 0, 0,
   98, 134, 61, 95, 68, 126, 34, -11,
   -6, 7, 26, 31, 65, 56, 25, -20,
   -14, 13, 6, 21, 23, 12, 17, -23,
   -27, -2, -5, 12, 17, 6, 10, -25,
   -26, -4, -4, -10, 3, 3, 33, -12,
   -35, -1, -20, -23, -15, 24, 38, -22,
   0, 0, 0, 0, 0, 0, 0, 0]

def TAPERED_PAWN_LATE : List Int :=
  [0, 0, 0, 0, 0, 0, 0, 0,
   178, 173, 158, 134, 147, 132, 165, 187,
   94, 100, 85, 67, 56, 53, 82, 84,
   32, 24, 13, 5, -2, 4, 17, 17,
   13, 9, -3, -7, -7, -8, 3, -1,
   4, 7, -6, 1, 0, -5, -1, -8,
   13, 8, 8, 10, 13, 0, 2, -7,
   0, 0, 0, 0, 0, 0, 0, 0]

def TAPERED_KNIGHT_EARLY : List Int :=
  [-167, -89, -34, -49, 61, -97, -15, -107,
   -73, -41, 72, 36, 23, 62, 7, -17,
   -47, 60, 37, 65, 84, 129, 73, 44,
   -9, 17, 19, 53, 37, 69, 18, 22,
   -13, 4, 16, 13, 28, 19, 21, -8,
   -23, -9, 12, 10, 19, 17, 25, -16,
   -29, -53, -12, -3, -1, 18, -14, -19,
   -105, -21, -58, -33, -17, -28, -19, -23]

def TAPERED_KNIGHT_LATE : List Int :=
  [-58, -38, -13, -28, -31, -27, -63, -99,
   -25, -8, -25, -2, -9, -25, -24, -52,
   -24, -20, 10, 9, -1, -9, -19, -41,
   -17, 3, 22, 22, 22, 11, 8, -18,
   -18, -6, 16, 25, 16, 17, 4, -18,
   -23, -3, -1, 15, 10, -3, -20, -22,
   -42, -20, -10, -5, -2, -20, -23, -44,
   -29, -51, -23, -15, -22, -18, -50, -64]

def TAPERED_BISHOP_EARLY : List Int :=
  [-29, 4, -82, -37, -25, -42, 7, -8,
   -26, 16, -18, -13, 30, 59, 18, -47,
   -16, 37, 43, 40, 35, 50, 37, -2,
   -4, 5, 19, 50, 37, 37, 7, -2,
   -6, 13, 13, 26, 34, 12, 10, 4,
   0, 15, 15, 15, 14, 27, 18, 10,
   4, 15, 16, 0, 7, 21, 33, 1,
   -33, -3, -14, -21, -13, -12, -39, -21]

def TAPERED_BISHOP_LATE : List Int :=
  [-14, -21, -11, -8, -7, -9, -17, -24,
   -8, -4, 7, -12, -3, -13, -4, -14,
   2, -8, 0, -1, -2, 6, 0, 4,
   -3, 9, 12, 9, 14, 10, 3, 2,
   -6, 3, 13, 19, 7, 10, -3, -9,
   -12, -3, 8, 10, 13, 3, -7, -15,
   -14, -18, -7, -1, 4, -9, -15, -27,
   -23, -9, -23, -5, -9, -16, -5, -17]

def TAPERED_ROOK_EARLY : List Int :=
  [32, 42, 32, 51, 63, 9, 31, 43,
   27, 32, 58, 62, 80, 67, 26, 44,
   -5, 19, 26, 36, 17, 45, 61, 16,
   -24, -11, 7, 26, 24, 35, -8, -20,
   -36, -26, -12, -1, 9, -7, 6, -23,
   -45, -25, -16, -17, 3, 0, -5, -33,
   -44, -16, -20, -9, -1, 11, -6, -71,
   -19, -13, 1, 17, 16, 7, -37, -26]

def TAPERED_ROOK_LATE : List Int :=
  [13, 10, 18, 15, 12, 12, 8, 5,
   11, 13, 13, 11, -3, 3, 8, 3,
   7, 7, 7, 5, 4, -3, -5, -3,
   4, 3, 13, 1, 2, 1, -1, 2,
   3, 5, 8, 4, -5, -6, -8, -11,
   -4, 0, -5, -1, -7, -12, -8, -16,
   -6, -6, 0, 2, -9, -9, -11, -3,
   -9, 2, 3, -1, -5, -13, 4, -20]

def TAPERED_QUEEN_EARLY : List Int :=
  [-28, 0, 29, 12, 59, 44, 43, 45,
   -24, -39, -5, 1, -16, 57, 28, 54,
   -13, -17, 7, 8, 29, 56, 47, 57,
   -27, -27, -16, -16, -1, 17, -2, 1,
   -9, -26, -9, -10, -2, -4, 3, -3,
   -14, 2, -11, -2, -5, 2, 14, 5,
   -35, -8, 11, 2, 8, 15, -3, 1,
   -1, -18, -9, 10, -15, -25, -31, -50]

def TAPERED_QUEEN_LATE : List Int :=
  [-9, 22, 22, 27, 27, 19, 10, 20,
   -17, 20, 32, 41, 58, 25, 30, 0,
   -20, 6, 9, 49, 47, 35, 19, 9,
   3, 22, 24, 45, 57, 40, 57, 36,
   -18, 28, 19, 47, 31, 34, 39, 23,
   -16, -27, 15, 6, 9, 17, 10, 5,
   -22, -23, -30, -16, -16, -23, -36, -32,
   -33, -28, -22, -43, -5, -32, -20, -41]

def TAPERED_KING_EARLY : List Int :=
  [-65, 23, 16, -15, -56, -34, 2, 13,
   29, -1, -20, -7, -8, -4, -38, -29,
   -9, 24, 2, -16, -20, 6, 22, -22,
   -17, -20, -12, -27, -30, -25, -14, -36,
   -49, -1, -27, -39, -46, -44, -33, -51,
   -14, -14, -22, -46, -44, -30, -15, -27,
   1, 7, -8, -64, -43, -16, 9, 8,
   -15, 36, 12, -54, 8, -28, 24, 14]

def TAPERED_KING_LATE : List Int :=
  [-74, -35, -18, -18, -11, 15, 4, -17,
   -12, 17, 14, 17, 17, 38, 23, 11,
   10, 17, 23, 15, 20, 45, 44, 13,
   -8, 22, 24, 27, 26, 33, 26, 3,
   -18, -4, 21, 24, 27, 23, 9, -11,
   -19, -3, 11, 21, 23, 16, 7, -9,
   -27, -11, 4, 13, 14, 4, -5, -17,
   -53, -34, -21, -11, -28, -14, -24, -430]

/-- PositionalScore indexing: early for Opening, late for Endgame (Midgame is
unreachable!() and never passed). -/
def taperedAt (early late : List Int) (phase : GamePhase) (idx : Nat) : Int :=
  match phase with
  | .opening => early.getD idx 0
  | _ => late.getD idx 0

/-- get_game_phase_score: the non-pawn, non-king material of both sides using
opening values (the black entries of the table are negative and are negated
back). -/
def getGamePhaseScore (p : Position) : Int :=
  let whiteScore := [WN, WB, WR, WQ].foldl
    (fun acc idx => acc + (countOnes (p.pieces idx) : Int) * materialScore .opening idx) 0
  let blackScore := [BN, BB, BR, BQ].foldl
    (fun acc idx => acc + (countOnes (p.pieces idx) : Int) * (-(materialScore .opening idx))) 0
  whiteScore + blackScore

/-- interpolate_score; Rust i32 division truncates toward zero, hence tdiv. -/
def interpolateScore (phase : GamePhase) (openingScore endgameScore phaseScore : Int) : Int :=
  match phase with
  | .opening => openingScore
  | .endgame => endgameScore
  | .midgame =>
    Int.tdiv (openingScore * phaseScore +
      endgameScore * (OPENING_SCORE_THRESHOLD - phaseScore)) OPENING_SCORE_THRESHOLD

/-- The per-square tapered contribution of one piece class (the match arms of
evaluate_position; every pawn-structure / mobility / king-safety block in the
source is commented out). -/
def taperedScores (piece : Nat) (phase : GamePhase) (idx : Nat) : Int :=
  if piece = WP ∨ piece = BP then taperedAt TAPERED_PAWN_EARLY TAPERED_PAWN_LATE phase idx
  else if piece = WN ∨ piece = BN then taperedAt TAPERED_KNIGHT_EARLY TAPERED_KNIGHT_LATE phase idx
  else if piece = WB ∨ piece = BB then taperedAt TAPERED_BISHOP_EARLY TAPERED_BISHOP_LATE phase idx
  else if piece = WQ ∨ piece = BQ then taperedAt TAPERED_QUEEN_EARLY TAPERED_QUEEN_LATE phase idx
  else if piece = WR ∨ piece = BR then taperedAt TAPERED_ROOK_EARLY TAPERED_ROOK_LATE phase idx
  else taperedAt TAPERED_KING_EARLY TAPERED_KING_LATE phase idx

/-- evaluate_position; None models the unreachable!() on Side::Both at the
final perspective flip. -/
def evaluatePosition (p : Position) : Option Int :=
  let gamePhaseScore := getGamePhaseScore p
  let gamePhase := GamePhase.fromScore gamePhaseScore
  let scores := (List.range 12).foldl
    (fun (acc : Int × Int) idx =>
      (bbList (p.pieces idx)).foldl
        (fun (acc : Int × Int) square =>
          let isWhite := pieceSide idx = Side.white
          let sign : Int := if isWhite then 1 else -1
          let squareIdx := if isWhite then square else mirrorSquare square
          (acc.1 + materialScore .opening idx + sign * taperedScores idx .opening squareIdx,
           acc.2 + materialScore .endgame idx + sign * taperedScores idx .endgame squareIdx))
        acc)
    (0, 0)
  let score := interpolateScore gamePhase scores.1 scores.2 gamePhaseScore
  match p.sideToMove with
  | .white => some score
  | .black => some (-score)
  | .both => none

/-! Move ordering, from milky_chess::evaluate (score_move) and
milky_chess::moves (sort_moves). -/

def MVV_LVA : List (List Int) :=
  [[105, 205, 305, 405, 505, 605, 105, 205, 305, 405, 505, 605],
   [104, 204, 304, 404, 504, 604, 104, 204, 304, 404, 504, 604],
   [103, 203, 303, 403, 503, 603, 103, 203, 303, 403, 503, 603],
   [102, 202, 302, 402, 502, 602, 102, 202, 302, 402, 502, 602],
   [101, 201, 301, 401, 501, 601, 101, 201, 301, 401, 501, 601],
   [100, 200, 300, 400, 500, 600, 100, 200, 300, 400, 500, 600]]

def mvvLva (attackerKind victim : Nat) : Int :=
  (MVV_LVA.getD attackerKind []).getD victim 0

def PV_MOVE_SCORE : Int := 20000
def MVV_LVA_BONUS : Int := 10000
def FIRST_KILLER_MOVE : Int := 9000
def SECOND_KILLER_MOVE : Int := 8000

/-- score_move; clears score_pv when it pays the PV bonus, hence it returns
the updated search state as well. -/
def scoreMove (b : BoardState) (s : SearchState) (mv : Nat) : Int × SearchState :=
  if s.scorePv ∧ s.pvTable 0 b.ply = mv then
    (PV_MOVE_SCORE, { s with scorePv := false })
  else if moveIsCapture mv then
    let attacker := movePiece mv
    let victimSquare := moveTarget mv
    let range := if b.position.sideToMove = Side.white then blackPieceList else whitePieceList
    let victim :=
      (range.find? (fun idx => getBit (b.position.pieces idx) victimSquare != 0)).getD WP
    (mvvLva (pieceKind attacker) victim + MVV_LVA_BONUS, s)
  else if s.killerMoves 0 b.ply = mv then (FIRST_KILLER_MOVE, s)
  else if s.killerMoves 1 b.ply = mv then (SECOND_KILLER_MOVE, s)
  else (s.historyMoves (movePiece mv) (moveTarget mv), s)

/-- sort_moves: score every buffered move (threading score_pv through in
order), then stable-sort descending by score; Rust sort_by_key with
cmp::Reverse is a stable descending sort, which corresponds to the stable
insertionSort with this comparison. -/
def sortMoves (b : BoardState) (s : SearchState) : SearchState :=
  let scored := s.moves.foldl
    (fun (acc : List (Int × Nat) × SearchState) m =>
      let (sc, st) := scoreMove b acc.2 m
      (acc.1 ++ [(sc, m)], st))
    ([], s)
  let sorted := List.insertionSort (fun a b => b.1 ≤ a.1) scored.1
  { scored.2 with moves := sorted.map Prod.snd }

/-- SearchState::enable_pv_scoring. -/
def enablePvScoring (s : SearchState) (gamePly : Nat) : SearchState :=
  let s := { s with followPv := false }
  s.moves.foldl
    (fun st m =>
      if st.pvTable 0 gamePly = m then { st with scorePv := true, followPv := true }
      else st)
    s

/-! The search, from milky_chess::search.  SearchContext carries the Zobrist
tables and the time manager; TimeManager::should_stop is wall-clock based for
some time controls and is modelled as an arbitrary pure predicate of the
(depth, nodes) pair it receives.  Negamax and quiescence are not structurally
recursive, so they take explicit fuel; None means the fuel ran out (or an
unreachable!()/panic path was hit). -/

structure SearchCtx where
  Z : ZTables
  shouldStop : Nat → Nat → Bool

/-- The king square negamax checks: the least set bit of the side to move's
own king board (Side::Both is unreachable!()). -/
def ownKingSquare (p : Position) : Option Nat :=
  match p.sideToMove with
  | .white => some (trailingZeros (p.pieces WK))
  | .black => some (trailingZeros (p.pieces BK))
  | .both => none

/-- The in_check test of negamax: the side to move's king square is attacked
by the opponent. -/
def inCheckNow (p : Position) : Option Bool := do
  let kingSquare ← ownKingSquare p
  let enemy ← p.sideToMove.enemy
  pure (isSquareAttacked p kingSquare enemy)

structure EngineState where
  tt : TT
  board : BoardState
  search : SearchState

def FULL_DEPTH_MOVES : Nat := 4
def REDUCTION_LIMIT : Nat := 3

/-- The move loop of quiescence: ply and repetition bookkeeping around each
make / undo pair, fail-hard alpha / beta updates.  The recursive call back
into quiescence (one fuel lower) is passed in as the child argument. -/
def qLoop (Z : ZTables)
    (child : EngineState → Int → Int → Option (Int × EngineState)) :
    List Nat → EngineState → Int → Int → Option (Int × EngineState)
  | [], st, alpha, _ => some (alpha, st)
  | mv :: rest, st, alpha, beta => do
    let b := recordRepetition { st.board with ply := st.board.ply + 1 }
    let (pos, valid) ← makeMove Z b.position mv .captures
    if valid = false then
      let st := { st with board :=
        { b with position := pos, ply := b.ply - 1, repetitionIndex := b.repetitionIndex - 1 } }
      qLoop Z child rest st alpha beta
    else do
      let stChild := { st with board := { b with position := pos } }
      let r ← child stChild (-beta) (-alpha)
      let score := -r.1
      let st2 := r.2
      let posBack ← undoMove st2.board.position
      let st := { st2 with board :=
        { st2.board with position := posBack, ply := st2.board.ply - 1,
                         repetitionIndex := st2.board.repetitionIndex - 1 } }
      if score > alpha then
        if score ≥ beta then pure (beta, st)
        else qLoop Z child rest st score beta
      else qLoop Z child rest st alpha beta

/-- SearchState::quiescence. -/
def quiescence : Nat → SearchCtx → EngineState → Int → Int → Option (Int × EngineState)
  | 0, _, _, _, _ => none
  | fuel + 1, ctx, st, alpha, beta => do
    let st := { st with search := { st.search with nodes := st.search.nodes + 1 } }
    if st.board.ply > MAX_PLY - 1 then do
      let e ← evaluatePosition st.board.position
      pure (e, st)
    else do
      let evaluation ← evaluatePosition st.board.position
      if evaluation ≥ beta then pure (beta, st)
      else
        let alpha := if evaluation > alpha then evaluation else alpha
        let st := { st with search :=
          { st.search with moves := generateMoves st.board.position } }
        let st := { st with search := sortMoves st.board st.search }
        qLoop ctx.Z (fun st a b => quiescence fuel ctx st a b) st.search.moves st alpha beta

/-- The move loop of negamax, carrying alpha, the pending TT flag and the
legal_moves / moves_searched counters; the empty list ends the loop and
triggers the checkmate / stalemate scores and the TT store.  The recursive
calls back into negamax (one fuel lower) are passed in as the child
argument. -/
def nLoop (Z : ZTables)
    (child : EngineState → Int → Int → Nat → Option (Int × EngineState)) :
    List Nat → EngineState → Int → Int → Nat → Bool → TTFlag → Nat → Nat →
    Option (Int × EngineState)
  | [], st, alpha, _, depth, inCheck, ttFlag, legalMoves, _ =>
    if legalMoves = 0 then
      if inCheck then some (-MATE_UPPER_BOUND + (st.board.ply : Int), st)
      else some (0, st)
    else
      let tt := ttSet st.tt st.board.position.key depth alpha ttFlag st.board.ply
      some (alpha, { st with tt := tt })
  | mv :: rest, st, alpha, beta, depth, inCheck, ttFlag, legalMoves, movesSearched => do
    let b := recordRepetition { st.board with ply := st.board.ply + 1 }
    let (pos, valid) ← makeMove Z b.position mv .allMoves
    if valid = false then
      let st := { st with board :=
        { b with position := pos, ply := b.ply - 1, repetitionIndex := b.repetitionIndex - 1 } }
      nLoop Z child rest st alpha beta depth inCheck ttFlag legalMoves movesSearched
    else do
      let legalMoves := legalMoves + 1
      let stChild := { st with board := { b with position := pos } }
      let promo ← movePromotion mv
      let (score, st2) ←
        if movesSearched = 0 then do
          let r ← child stChild (-beta) (-alpha) (depth - 1)
          pure (-r.1, r.2)
        else do
          let shouldReduce : Bool :=
            FULL_DEPTH_MOVES ≤ movesSearched ∧ REDUCTION_LIMIT ≤ depth ∧
            ¬ inCheck = true ∧ ¬ moveIsCapture mv = true ∧ ¬ isPromoting promo = true
          let (shallow, stA) ←
            if shouldReduce then do
              let r ← child stChild (-alpha - 1) (-alpha) (depth - 2)
              pure (-r.1, r.2)
            else pure (alpha + 1, stChild)
          if shallow > alpha then do
            let r ← child stA (-alpha - 1) (-alpha) (depth - 1)
            let deeper := -r.1
            if deeper > alpha ∧ deeper < beta then do
              let r2 ← child r.2 (-beta) (-alpha) (depth - 1)
              pure (-r2.1, r2.2)
            else pure (deeper, r.2)
          else pure (shallow, stA)
      let posBack ← undoMove st2.board.position
      let st := { st2 with board :=
        { st2.board with position := posBack, ply := st2.board.ply - 1,
                         repetitionIndex := st2.board.repetitionIndex - 1 } }
      let movesSearched := movesSearched + 1
      if score > alpha then
        let ttFlag := TTFlag.exact
        let st :=
          if ¬ moveIsCapture mv then
            let hist :=
              Function.update st.search.historyMoves (movePiece mv)
                (Function.update (st.search.historyMoves (movePiece mv)) (moveTarget mv)
                  (st.search.historyMoves (movePiece mv) (moveTarget mv) + (depth : Int)))
            { st with search := { st.search with historyMoves := hist } }
          else st
        let alpha := score
        let ply := st.board.ply
        let pvLen := st.search.pvLength (ply + 1)
        let row := fun (j : Nat) =>
          if j = ply then mv
          else if ply + 1 ≤ j ∧ j < pvLen then st.search.pvTable (ply + 1) j
          else st.search.pvTable ply j
        let pvT := Function.update st.search.pvTable ply row
        let pvL := Function.update st.search.pvLength ply pvLen
        let st := { st with search := { st.search with pvTable := pvT, pvLength := pvL } }
        if score ≥ beta then
          let tt2 := ttSet st.tt st.board.position.key depth beta .beta st.board.ply
          let st := { st with tt := tt2 }
          let st :=
            if ¬ moveIsCapture mv then
              let killers :=
                Function.update
                  (Function.update st.search.killerMoves 1
                    (Function.update (st.search.killerMoves 1) st.board.ply
                      (st.search.killerMoves 0 st.board.ply)))
                  0
                  (Function.update (st.search.killerMoves 0) st.board.ply mv)
              { st with search := { st.search with killerMoves := killers } }
            else st
          pure (beta, st)
        else nLoop Z child rest st alpha beta depth inCheck ttFlag legalMoves movesSearched
      else nLoop Z child rest st alpha beta depth inCheck ttFlag legalMoves movesSearched

/-- SearchState::negamax. -/
def negamax : Nat → SearchCtx → EngineState → Int → Int → Nat → Option (Int × EngineState)
  | 0, _, _, _, _, _ => none
  | fuel + 1, ctx, st, alpha, beta, depth => do
    if st.board.ply ≠ 0 ∧ isRepetition st.board then pure (0, st)
    else
      let pvNode : Bool := beta - alpha > 1
      let ttScore := ttGet st.tt st.board.position.key alpha beta depth st.board.ply
      let ttHit : Option Int :=
        match ttScore, decide (st.board.ply ≠ 0), !pvNode with
        | some score, true, true => some score
        | _, _, _ => none
      match ttHit with
      | some score => pure (score, st)
      | none => do
        let st := { st with search := { st.search with
          pvLength := Function.update st.search.pvLength st.board.ply st.board.ply } }
        if depth = 0 then quiescence fuel ctx st alpha beta
        else if st.board.ply > MAX_PLY - 1 then do
          let e ← evaluatePosition st.board.position
          pure (e, st)
        else do
          let st := { st with search := { st.search with nodes := st.search.nodes + 1 } }
          let kingSquare ← ownKingSquare st.board.position
          let enemy ← st.board.position.sideToMove.enemy
          if kingSquare ≥ 64 then none  -- index panic: side to move has no king
          else do
            let inCheck := isSquareAttacked st.board.position kingSquare enemy
            let depth := if inCheck then depth + 1 else depth
            if ctx.shouldStop depth st.search.nodes then pure (0, st)
            else do
              let afterNull ←
                if REDUCTION_LIMIT ≤ depth ∧ ¬ inCheck = true ∧ st.board.ply ≠ 0 then do
                  let b := recordRepetition
                    { st.board with position := snapshotBoard st.board.position,
                                    ply := st.board.ply + 1 }
                  let key := if squareAvailable b.position.enPassant then
                      b.position.key ^^^ ctx.Z.enPassant b.position.enPassant
                    else b.position.key
                  let pos := { b.position with enPassant := OFF_BOARD, sideToMove := enemy,
                                               key := key ^^^ ctx.Z.sideKey }
                  let r ← negamax fuel ctx { st with board := { b with position := pos } }
                    (-beta) (-beta + 1) (depth - 1 - 2)
                  let score := -r.1
                  let st2 := r.2
                  let posBack ← undoMove st2.board.position
                  let st2 := { st2 with board :=
                    { st2.board with position := posBack, ply := st2.board.ply - 1,
                                     repetitionIndex := st2.board.repetitionIndex - 1 } }
                  if score ≥ beta then pure (Sum.inl (beta, st2))
                  else pure (Sum.inr st2)
                else pure (Sum.inr st)
              match afterNull with
              | .inl result => pure result
              | .inr st => do
                let st := { st with search := { st.search with
                  moves := generateMoves st.board.position } }
                let st :=
                  if st.search.followPv then
                    { st with search := enablePvScoring st.search st.board.ply }
                  else st
                let st := { st with search := sortMoves st.board st.search }
                nLoop ctx.Z (fun st a b d => negamax fuel ctx st a b d)
                  st.search.moves st alpha beta depth inCheck .alpha 0 0


def ASPIRATION_WINDOW : Int := 50

/-- The aspiration-window update of SearchState::search_position: when the
score fails outside the window the bounds widen to plus and minus INFINITY;
in both branches curr_depth advances by one before the next negamax call. -/
def aspirationNext (score alpha beta : Int) (currDepth : Nat) : Int × Int × Nat :=
  if score ≤ alpha ∨ score ≥ beta then (-INFINITY, INFINITY, currDepth + 1)
  else (score - ASPIRATION_WINDOW, score + ASPIRATION_WINDOW, currDepth + 1)

/-- The iterative-deepening loop of SearchState::search_position (the printed
info lines have no state effect and are dropped); fuelN is the fuel handed to
each negamax call. -/
def searchLoop : Nat → Nat → SearchCtx → EngineState → Int → Int → Nat → Option EngineState
  | 0, _, _, st, _, _, _ => some st
  | fuel + 1, fuelN, ctx, st, alpha, beta, currDepth =>
    if ctx.shouldStop currDepth st.search.nodes then some st
    else do
      let st := { st with search := { st.search with followPv := true } }
      let r ← negamax fuelN ctx st alpha beta currDepth
      let next := aspirationNext r.1 alpha beta currDepth
      searchLoop fuel fuelN ctx r.2 next.1 next.2.1 next.2.2

/-- SearchState::search_position: reset the per-search tables, then iterate
from depth 1 with the full window. -/
def searchPosition (fuel fuelN : Nat) (ctx : SearchCtx) (st : EngineState) :
    Option EngineState :=
  let search := { st.search with
    nodes := 0
    followPv := false
    scorePv := false
    killerMoves := fun _ _ => 0
    historyMoves := fun _ _ => 0
    pvTable := fun _ _ => 0
    pvLength := fun _ => 0 }
  searchLoop fuel fuelN ctx { st with search := search } (-INFINITY) INFINITY 1

/-! Derived notions used by the verification statements below. -/

/-- make_move receives the full BoardState through MoveContext but reads and
writes only the Position sub-state; the lift makes that frame explicit. -/
def makeMoveOnBoard (Z : ZTables) (b : BoardState) (mv : Nat) (kind : MoveKind) :
    Option (BoardState × Bool) :=
  (makeMove Z b.position mv kind).map (fun r => ({ b with position := r.1 }, r.2))

/-- undo_move, lifted to the full BoardState like makeMoveOnBoard. -/
def undoMoveOnBoard (b : BoardState) : Option BoardState :=
  (undoMove b.position).map (fun p => { b with position := p })

/-- A sequence of make_move(AllMoves) calls; counts how many of them returned
true (each such call leaves one snapshot on the stack). -/
def doMoves (Z : ZTables) : Position → List Nat → Option (Position × Nat)
  | pos, [] => some (pos, 0)
  | pos, mv :: rest => do
    let (pos, valid) ← makeMove Z pos mv .allMoves
    let (posEnd, count) ← doMoves Z pos rest
    if valid then pure (posEnd, count + 1) else pure (posEnd, count)

/-- n undo_move calls. -/
def doUndos : Position → Nat → Option Position
  | pos, 0 => some pos
  | pos, n + 1 => do
    let pos ← undoMove pos
    doUndos pos n

/-- XOR of f over a list, the shape of every Zobrist accumulation. -/
def xorFold (f : Nat → Nat) (l : List Nat) : Nat :=
  l.foldl (fun k j => k ^^^ f j) 0

/-- Canonical form of the piece-square XOR of one board: XOR of f over the
set bits of b among 0..63. -/
def bitXor (f : Nat → Nat) (b : Nat) : Nat :=
  xorFold (fun j => if b.testBit j then f j else 0) (List.range 64)

/-- The en-passant contribution of hash_position, as an XOR term. -/
def epTerm (Z : ZTables) (e : Nat) : Nat :=
  if squareAvailable e then Z.enPassant e else 0

/-- The side-to-move contribution of hash_position, as an XOR term. -/
def sideTerm (Z : ZTables) (s : Side) : Nat :=
  if s = Side.black then Z.sideKey else 0

/-- Shorthand for the from-scratch hash of a position's hashed fields. -/
def rehash (Z : ZTables) (p : Position) : Nat :=
  hashPosition Z p.pieces p.sideToMove p.enPassant p.castlingRights

/-- The boards a position may hold: each of the twelve fits in a u64. -/
def wfPieces (pieces : Nat → Nat) : Prop :=
  ∀ p, p < 12 → pieces p < 2 ^ 64

/-- Well-formedness of a move against a position, as maintained by the move
generator: the moving piece is a real piece whose board holds the source
square and not the target square, a promotion moves the side's pawn and the
promoted piece's board is free on the target, an en-passant capture finds the
enemy pawn behind the target, and a castling move (a king move) finds the
rook on its home square with its destination free. -/
def moveOk (pos : Position) (mv : Nat) : Prop :=
  let piece := movePiece mv
  let source := moveSource mv
  let target := moveTarget mv
  let promo := (mv >>> 16) &&& 0xF
  wfPieces pos.pieces ∧
  piece < 12 ∧
  Nat.testBit (pos.pieces piece) source = true ∧
  Nat.testBit (pos.pieces piece) target = false ∧
  (isPromoting promo = true →
    ((pos.sideToMove = Side.white ∧ piece = WP) ∨
     (pos.sideToMove = Side.black ∧ piece = BP)) ∧
    (promotedIntoPiece promo pos.sideToMove).elim True
      (fun q => Nat.testBit (pos.pieces q) target = false ∧
        q < 12 ∧ q ≠ WP ∧ q ≠ BP)) ∧
  (moveIsEnPassant mv = true →
    ((pos.sideToMove = Side.white ∧ piece = WP) ∨
     (pos.sideToMove = Side.black ∧ piece = BP)) ∧
    (epCaptureSquare pos.sideToMove target).elim True
      (fun sq =>
        Nat.testBit
          (pos.pieces (match pos.sideToMove with | Side.white => BP | _ => WP)) sq = true)) ∧
  (moveIsCastling mv = true →
    (castleRookMove target).elim True
      (fun r =>
        r.1 ≠ piece ∧ Nat.testBit (pos.pieces r.1) r.2.1 = true ∧
        Nat.testBit (pos.pieces r.1) r.2.2 = false))

/-! Concrete fixtures for the witnesses and counterexamples.  The Zobrist
tables are an arbitrary choice (the source draws them from a PRNG). -/

def wZ : ZTables :=
  { piecesTable := fun p s => (p * 64 + s + 1) * 2654435761 % 2 ^ 64
    enPassant := fun s => (4096 + s) * 40503 % 2 ^ 64
    castlingRights := fun r => (8192 + r) * 2654435761 % 2 ^ 64
    sideKey := 99991 }

def ttEmpty : TT := fun _ => TTEntry.default

/-- Fixture: white king e1, white rook a1, black king e8, white to move,
fifty-move counter 5. -/
def wPosRook : Position :=
  { pieces := fun i =>
      if i = WK then 2 ^ 60 else if i = WR then 2 ^ 56 else if i = BK then 2 ^ 4 else 0
    occupancies := fun s =>
      match s with
      | .white => 2 ^ 60 + 2 ^ 56
      | .black => 2 ^ 4
      | .both => 2 ^ 60 + 2 ^ 56 + 2 ^ 4
    sideToMove := .white
    enPassant := OFF_BOARD
    castlingRights := 0
    snapshots := []
    fiftyMoveCounter := 5
    key := 0 }

/-- Fixture position with the Zobrist key set from a full rehash. -/
def wPosRookH : Position := { wPosRook with key := rehash wZ wPosRook }

/-- Fixture FEN parts describing the same board as wPosRook. -/
def wFen : FenParts :=
  { positions := wPosRook.pieces
    whiteOccupancy := 2 ^ 60 + 2 ^ 56
    blackOccupancy := 2 ^ 4
    bothOccupancy := 2 ^ 60 + 2 ^ 56 + 2 ^ 4
    sideToMove := .white
    enPassant := OFF_BOARD
    castlingRights := 0 }

/-- Rook a1 to a2, a quiet move. -/
def wMvQuiet : Nat := mkMove 56 48 WR NO_PROMOTION 0

/-- Fixture: like wPosRook but with a black pawn on a7 for a capture, and a
black pawn on a2 about to promote. -/
def wPosCap : Position :=
  { pieces := fun i =>
      if i = WK then 2 ^ 60 else if i = WR then 2 ^ 56 else if i = BK then 2 ^ 4
      else if i = BP then 2 ^ 8 + 2 ^ 48 else 0
    occupancies := fun s =>
      match s with
      | .white => 2 ^ 60 + 2 ^ 56
      | .black => 2 ^ 4 + 2 ^ 8 + 2 ^ 48
      | .both => 2 ^ 60 + 2 ^ 56 + 2 ^ 4 + 2 ^ 8 + 2 ^ 48
    sideToMove := .white
    enPassant := OFF_BOARD
    castlingRights := 0
    snapshots := []
    fiftyMoveCounter := 5
    key := 0 }

def wPosCapH : Position := { wPosCap with key := rehash wZ wPosCap }

/-- Rook a1 takes the pawn on a7. -/
def wMvCapture : Nat := mkMove 56 8 WR NO_PROMOTION FLAG_CAPTURE

/-- Fixture: black pawn a2 about to promote on a1 (also capturing on b1);
black to move. -/
def wPosPromo : Position :=
  { pieces := fun i =>
      if i = WK then 2 ^ 60 else if i = WR then 2 ^ 57 else if i = BK then 2 ^ 4
      else if i = BP then 2 ^ 48 else 0
    occupancies := fun s =>
      match s with
      | .white => 2 ^ 60 + 2 ^ 57
      | .black => 2 ^ 4 + 2 ^ 48
      | .both => 2 ^ 60 + 2 ^ 57 + 2 ^ 4 + 2 ^ 48
    sideToMove := .black
    enPassant := OFF_BOARD
    castlingRights := 0
    snapshots := []
    fiftyMoveCounter := 0
    key := 0 }

/-- Fixture: white checkmated (white king h1, black queen g2, black king g3),
white to move. -/
def wPosMate : Position :=
  { pieces := fun i =>
      if i = WK then 2 ^ 63 else if i = BQ then 2 ^ 54 else if i = BK then 2 ^ 46 else 0
    occupancies := fun s =>
      match s with
      | .white => 2 ^ 63
      | .black => 2 ^ 54 + 2 ^ 46
      | .both => 2 ^ 63 + 2 ^ 54 + 2 ^ 46
    sideToMove := .white
    enPassant := OFF_BOARD
    castlingRights := 0
    snapshots := []
    fiftyMoveCounter := 0
    key := 0 }

def wPosMateH : Position := { wPosMate with key := rehash wZ wPosMate }

def wBoardMate : BoardState :=
  { position := wPosMateH, ply := 0, repetitionTable := fun _ => 0, repetitionIndex := 0 }

def wEngMate : EngineState :=
  { tt := ttEmpty, board := wBoardMate, search := SearchState.new }

def wCtx : SearchCtx := { Z := wZ, shouldStop := fun _ _ => false }

/-! Structural lemmas about make_move and undo_move. -/

theorem makeMoveApplied_frame (Z : ZTables) (pos0 : Position) (mv : Nat) (t : Position)
    (h : makeMoveApplied Z pos0 mv = some t) :
    t.snapshots = mkSnapshot pos0 :: pos0.snapshots ∧
    t.fiftyMoveCounter = pos0.fiftyMoveCounter := by
  simp only [makeMoveApplied] at h
  cases hc : makeMoveCore Z (snapshotBoard pos0) mv with
  | none => rw [hc] at h; simp at h
  | some r =>
    rw [hc] at h
    obtain ⟨pieces, ep, castle, key⟩ := r
    cases he : (snapshotBoard pos0).sideToMove.enemy with
    | none => simp [he] at h
    | some newSide =>
      simp [he] at h
      subst h
      exact ⟨rfl, rfl⟩

theorem undoMove_of_snapshots (t p : Position)
    (h : t.snapshots = mkSnapshot p :: p.snapshots) : undoMove t = some p := by
  unfold undoMove
  rw [h]
  rfl

/-- Case analysis of make_move in AllMoves mode: it succeeds exactly on an
applied position whose mover king exists, returning the applied position with
true when the king is safe, and the restored input with false when it is
attacked. -/
theorem makeMoveAll_spec (Z : ZTables) (pos0 : Position) (mv : Nat) (r : Position × Bool)
    (h : makeMoveAll Z pos0 mv = some r) :
    ∃ t, makeMoveApplied Z pos0 mv = some t ∧
      ∃ k, moverKingPiece t.sideToMove = some k ∧
        ¬ trailingZeros (t.pieces k) ≥ 64 ∧
        (if isSquareAttacked t (trailingZeros (t.pieces k)) t.sideToMove then
          r = (pos0, false)
        else r = (t, true)) := by
  simp only [makeMoveAll] at h
  cases ha : makeMoveApplied Z pos0 mv with
  | none => rw [ha] at h; simp at h
  | some t =>
    rw [ha] at h
    cases hk : moverKingPiece t.sideToMove with
    | none => simp [hk] at h
    | some k =>
      simp only [Option.bind_eq_bind] at h
      rw [Option.some_bind] at h
      rw [hk, Option.some_bind] at h
      refine ⟨t, rfl, k, hk, ?_⟩
      by_cases hge : trailingZeros (t.pieces k) ≥ 64
      · simp [hge] at h
      · simp only [hge, if_false] at h
        refine ⟨hge, ?_⟩
        by_cases hatt : isSquareAttacked t (trailingZeros (t.pieces k)) t.sideToMove
        · simp only [hatt, if_true] at h ⊢
          rw [undoMove_of_snapshots t pos0 (makeMoveApplied_frame Z pos0 mv t ha).1] at h
          simp at h
          exact h.symm
        · simp only [hatt, if_false] at h ⊢
          simp at h
          exact h.symm

/-- A successful make_move keeps the fifty-move counter (it is only copied
into the snapshot, or restored from it on the rollback path). -/
theorem makeMoveAll_fifty (Z : ZTables) (pos : Position) (mv : Nat) (r : Position × Bool)
    (h : makeMoveAll Z pos mv = some r) :
    r.1.fiftyMoveCounter = pos.fiftyMoveCounter := by
  obtain ⟨t, ht, k, hk, hge, hif⟩ := makeMoveAll_spec Z pos mv r h
  by_cases hatt : isSquareAttacked t (trailingZeros (t.pieces k)) t.sideToMove
  · rw [if_pos hatt] at hif; rw [hif]
  · rw [if_neg hatt] at hif; rw [hif]
    exact (makeMoveApplied_frame Z pos mv t ht).2

/-- Undoing n+1 snapshots is undoing n and then one more. -/
theorem doUndos_succ (n : Nat) : ∀ p, doUndos p (n + 1) = (doUndos p n).bind undoMove := by
  induction n with
  | zero =>
    intro p
    show (undoMove p).bind (fun q => doUndos q 0) = (some p).bind undoMove
    rw [Option.some_bind]
    cases undoMove p <;> rfl
  | succ n ih =>
    intro p
    show (undoMove p).bind (fun q => doUndos q (n + 1)) = (doUndos p (n + 1)).bind undoMove
    cases hu : undoMove p with
    | none =>
      show none = ((undoMove p).bind fun q => doUndos q n).bind undoMove
      rw [hu]; rfl
    | some q =>
      show doUndos q (n + 1) = ((undoMove p).bind fun q => doUndos q n).bind undoMove
      rw [hu, Option.some_bind, ih q]

/-! Claim C10: in Captures mode make_move rejects every non-capture without
touching any state. -/

/-- C10: for a move whose capture flag is clear, make_move(mv, Captures)
returns false and the position (boards, occupancies, side, en passant,
castling, counters, key and the snapshot stack) is exactly the input; hence
quiescence, which calls make_move in Captures mode only, never applies a
non-capture to the position. -/
theorem captures_mode_rejects_noncapture (Z : ZTables) (pos : Position) (mv : Nat)
    (h : moveIsCapture mv = false) :
    makeMove Z pos mv .captures = some (pos, false) := by
  simp [makeMove, h]

theorem captures_mode_rejects_noncapture_witness :
    moveIsCapture wMvQuiet = false ∧
    makeMove wZ wPosRookH wMvQuiet .captures = some (wPosRookH, false) :=
  ⟨by decide, captures_mode_rejects_noncapture wZ wPosRookH wMvQuiet (by decide)⟩

/-! Claim C9: make_move and undo_move leave ply, repetition_table and
repetition_index unchanged; those fields are adjusted only by the callers
around each make / undo pair. -/

/-- C9: lifted to the BoardState that the Rust methods receive, make_move in
either mode and undo_move return a state whose ply, repetition_index and
repetition_table equal the input's; make_move and undo_move read and write
only the Position sub-state. -/
theorem make_undo_preserve_ply_and_repetition (Z : ZTables) (b : BoardState) (mv : Nat)
    (kind : MoveKind) :
    ((makeMoveOnBoard Z b mv kind).map
        (fun r => (r.1.ply, r.1.repetitionIndex, r.1.repetitionTable)) =
      (makeMoveOnBoard Z b mv kind).map
        (fun _ => (b.ply, b.repetitionIndex, b.repetitionTable))) ∧
    ((undoMoveOnBoard b).map (fun c => (c.ply, c.repetitionIndex, c.repetitionTable)) =
      (undoMoveOnBoard b).map (fun _ => (b.ply, b.repetitionIndex, b.repetitionTable))) := by
  constructor
  · unfold makeMoveOnBoard
    cases makeMove Z b.position mv kind <;> rfl
  · unfold undoMoveOnBoard
    cases undoMove b.position <;> rfl

/-! Claim C7: the spec says fifty_move_counter counts halfmoves since the
last capture or pawn move; the code never resets or increments it in
make_move, so it keeps its prior value after every move. -/

/-- C7 counterexample: a rook captures a pawn out of a position whose
fifty-move counter is 5; the move is applied (make_move returns true) yet the
counter stays 5, where the claim demands 0 after a capture. -/
theorem fifty_counter_claim_false :
    moveIsCapture wMvCapture = true ∧
    (makeMove wZ wPosCapH wMvCapture .allMoves).map Prod.snd = some true ∧
    (makeMove wZ wPosCapH wMvCapture .allMoves).map (fun r => r.1.fiftyMoveCounter) = some 5 ∧
    (5 : Nat) ≠ 0 := by
  refine ⟨by decide, by decide, by decide, by decide⟩

/-- C7 amended: make_move never modifies fifty_move_counter; in both modes a
completed call returns the input counter (the field is only snapshotted and
restored). -/
theorem fifty_counter_preserved (Z : ZTables) (pos : Position) (mv : Nat) (kind : MoveKind) :
    (makeMove Z pos mv kind).map (fun r => r.1.fiftyMoveCounter) =
      (makeMove Z pos mv kind).map (fun _ => pos.fiftyMoveCounter) := by
  cases hm : makeMove Z pos mv kind with
  | none => rfl
  | some r =>
    simp only [Option.map_some']
    have hr : r.1.fiftyMoveCounter = pos.fiftyMoveCounter := by
      cases kind with
      | allMoves => exact makeMoveAll_fifty Z pos mv r hm
      | captures =>
        have hcap : makeMove Z pos mv .captures =
            if moveIsCapture mv = true then makeMoveAll Z pos mv else some (pos, false) := rfl
        rw [hcap] at hm
        by_cases hc : moveIsCapture mv = true
        · rw [if_pos hc] at hm
          exact makeMoveAll_fifty Z pos mv r hm
        · rw [if_neg hc] at hm
          cases hm
          rfl
    rw [hr]

/-! Claim C1: make_move followed by undo_move restores the position exactly,
and a sequence of makes followed by the matching undos restores the initial
state. -/

/-- C1: running any list of moves through make_move(AllMoves) and then
undoing once per make that returned true yields exactly the starting
position: pieces, occupancies, side to move, en passant, castling rights,
fifty-move counter, Zobrist key and the snapshot stack all return to their
prior values (the equality is of whole Position values). -/
theorem make_undo_roundtrip (Z : ZTables) (pos : Position) (mvs : List Nat)
    (h : (doMoves Z pos mvs).isSome = true) :
    (doMoves Z pos mvs).bind (fun r => doUndos r.1 r.2) = some pos := by
  induction mvs generalizing pos with
  | nil => rfl
  | cons mv rest ih =>
    have hcons : doMoves Z pos (mv :: rest) =
        (makeMove Z pos mv .allMoves).bind (fun x =>
          (doMoves Z x.1 rest).bind (fun y =>
            if x.2 = true then some (y.1, y.2 + 1) else some (y.1, y.2))) := rfl
    rw [hcons] at h ⊢
    cases hm : makeMove Z pos mv .allMoves with
    | none => rw [hm] at h; simp at h
    | some r =>
      rw [hm] at h
      rw [Option.some_bind] at h ⊢
      cases hd : doMoves Z r.1 rest with
      | none => rw [hd] at h; simp at h
      | some s =>
        have hrest : (doMoves Z r.1 rest).bind (fun t => doUndos t.1 t.2) = some r.1 :=
          ih r.1 (by rw [hd]; rfl)
        rw [hd] at h
        rw [Option.some_bind] at h ⊢
        rw [hd, Option.some_bind] at hrest
        obtain ⟨t, ht, k, hk, hge, hif⟩ := makeMoveAll_spec Z pos mv r hm
        cases hv : r.2 with
        | false =>
          rw [if_neg (by decide), Option.some_bind]
          have hp1 : r.1 = pos := by
            by_cases hatt : isSquareAttacked t (trailingZeros (t.pieces k)) t.sideToMove
            · rw [if_pos hatt] at hif
              exact congrArg Prod.fst hif
            · rw [if_neg hatt] at hif
              rw [hif] at hv
              cases hv
          rw [hrest, hp1]
        | true =>
          rw [if_pos rfl, Option.some_bind]
          rw [doUndos_succ, hrest, Option.some_bind]
          by_cases hatt : isSquareAttacked t (trailingZeros (t.pieces k)) t.sideToMove
          · rw [if_pos hatt] at hif
            rw [hif] at hv
            cases hv
          · rw [if_neg hatt] at hif
            rw [show r.1 = t from congrArg Prod.fst hif]
            exact undoMove_of_snapshots t pos (makeMoveApplied_frame Z pos mv t ht).1

theorem make_undo_roundtrip_witness :
    (doMoves wZ wPosRookH [wMvQuiet, mkMove 4 3 BK NO_PROMOTION 0]).isSome = true ∧
    (doMoves wZ wPosRookH [wMvQuiet, mkMove 4 3 BK NO_PROMOTION 0]).bind
      (fun r => doUndos r.1 r.2) = some wPosRookH :=
  ⟨by decide,
   make_undo_roundtrip wZ wPosRookH [wMvQuiet, mkMove 4 3 BK NO_PROMOTION 0] (by decide)⟩

/-! Claim C3: make_move(AllMoves) returns true exactly when, after applying
the move, the moving side's king square (least set bit of its king board) is
not attacked by the new side to move; on false every field is restored. -/

/-- C3: a completed make_move(AllMoves) call returns true iff the applied
position leaves the mover's king square unattacked by the new side to move,
and whenever it returns false the returned position is exactly the input
(pieces, occupancies, side, en passant, castling, fifty-move counter, Zobrist
key and snapshot stack all restored). -/
theorem makeMove_legality (Z : ZTables) (pos : Position) (mv : Nat) :
    (((makeMove Z pos mv .allMoves).map Prod.snd = some true) ↔
      ((makeMove Z pos mv .allMoves).isSome = true ∧
        (makeMoveApplied Z pos mv).bind
          (fun t => (moverKingPiece t.sideToMove).map
            (fun k => isSquareAttacked t (trailingZeros (t.pieces k)) t.sideToMove)) =
          some false)) ∧
    ((makeMove Z pos mv .allMoves).map Prod.snd = some false →
      (makeMove Z pos mv .allMoves).map Prod.fst = some pos) := by
  constructor
  · constructor
    · intro htrue
      cases hm : makeMove Z pos mv .allMoves with
      | none => rw [hm] at htrue; cases htrue
      | some r =>
        rw [hm] at htrue
        obtain ⟨t, ht, k, hk, hge, hif⟩ := makeMoveAll_spec Z pos mv r hm
        by_cases hatt : isSquareAttacked t (trailingZeros (t.pieces k)) t.sideToMove
        · rw [if_pos hatt] at hif
          rw [hif] at htrue
          cases htrue
        · refine ⟨rfl, ?_⟩
          rw [ht, Option.some_bind, hk, Option.map_some']
          simp only [Option.some.injEq]
          exact Bool.not_eq_true _ ▸ (by simpa using hatt)
    · rintro ⟨hsome, hbind⟩
      cases hm : makeMove Z pos mv .allMoves with
      | none => rw [hm] at hsome; cases hsome
      | some r =>
        obtain ⟨t, ht, k, hk, hge, hif⟩ := makeMoveAll_spec Z pos mv r hm
        rw [ht, Option.some_bind, hk, Option.map_some'] at hbind
        have hatt : isSquareAttacked t (trailingZeros (t.pieces k)) t.sideToMove = false :=
          Option.some.inj hbind
        rw [hatt] at hif
        rw [if_neg (by simp)] at hif
        rw [hif]
        rfl
  · intro hfalse
    cases hm : makeMove Z pos mv .allMoves with
    | none => rw [hm] at hfalse; cases hfalse
    | some r =>
      rw [hm] at hfalse
      obtain ⟨t, ht, k, hk, hge, hif⟩ := makeMoveAll_spec Z pos mv r hm
      by_cases hatt : isSquareAttacked t (trailingZeros (t.pieces k)) t.sideToMove
      · rw [if_pos hatt] at hif
        rw [hif]
        rfl
      · rw [if_neg hatt] at hif
        rw [hif] at hfalse
        cases hfalse

theorem makeMove_legality_witness :
    (makeMove wZ wPosRookH wMvQuiet .allMoves).map Prod.snd = some true :=
  (makeMove_legality wZ wPosRookH wMvQuiet).1.mpr ⟨by decide, by decide⟩

/-! Claim C5: the transposition table is a fixed array of
N = total_bytes / entry_size entries indexed by key mod N; the spec's 64 MiB
default does not match the source, which ships TT_SIZE_MB = 4. -/

/-- C5 counterexample: the table defaults to 4 MiB, not 64 MiB. -/
theorem tt_default_size_claim_false :
    TT_SIZE_MB = 4 ∧ TT_SIZE_BYTES = 4 * 0x100000 ∧ TT_SIZE_BYTES ≠ 64 * 0x100000 := by
  refine ⟨rfl, by decide, by decide⟩

/-- C5 amended: the table has N = total_bytes / entry_size entries with
total_bytes = TT_SIZE_MB * 1 MiB and TT_SIZE_MB = 4 (not 64); a probe reads
only the entry at key mod N (two tables agreeing there probe alike), and a
store rewrites exactly the entry at key mod N, stamping it with the stored
key. -/
theorem tt_geometry (tt tt2 : TT) (key : Nat) (alpha beta : Int) (depth ply : Nat)
    (score : Int) (flag : TTFlag)
    (hagree : tt (ttIndex key) = tt2 (ttIndex key)) :
    TT_ENTRY_COUNT = TT_SIZE_BYTES / TT_ENTRY_SIZE ∧
    TT_SIZE_BYTES = ONE_MB * TT_SIZE_MB ∧
    TT_SIZE_MB = 4 ∧
    ttIndex key = key % TT_ENTRY_COUNT ∧
    ttGet tt key alpha beta depth ply = ttGet tt2 key alpha beta depth ply ∧
    (∀ i, i ≠ ttIndex key → ttSet tt key depth score flag ply i = tt i) ∧
    (ttSet tt key depth score flag ply (ttIndex key)).key = key := by
  refine ⟨rfl, rfl, rfl, rfl, ?_, ?_, ?_⟩
  · unfold ttGet
    rw [hagree]
  · intro i hi
    unfold ttSet
    exact Function.update_noteq hi _ tt
  · unfold ttSet
    rw [Function.update_same]

theorem tt_geometry_witness :
    ttEmpty (ttIndex 12345) = ttEmpty (ttIndex 12345) ∧
    ttGet ttEmpty 12345 (-50) 50 3 0 = ttGet ttEmpty 12345 (-50) 50 3 0 :=
  ⟨rfl, (tt_geometry ttEmpty ttEmpty 12345 (-50) 50 3 0 7 .exact rfl).2.2.2.2.1⟩

/-! Claim C6: bits 16..19 of the packed move word.  The source stores the
PromotedPieces enum discriminant (0 none, 1 knight, 2 bishop, 3 rook,
4 queen), identical for both sides, not the 0..11 piece index of the promoted
piece. -/

theorem tzAux_le : ∀ (fuel b : Nat), tzAux b fuel ≤ fuel := by
  intro fuel
  induction fuel with
  | zero => intro b; rfl
  | succ n ih =>
    intro b
    unfold tzAux
    by_cases hb : b % 2 = 1
    · rw [if_pos hb]; exact Nat.zero_le _
    · rw [if_neg hb]
      exact Nat.succ_le_succ (ih (b / 2))

theorem bbListAux_le : ∀ (fuel b : Nat), ∀ s ∈ bbListAux b fuel, s ≤ 64 := by
  intro fuel
  induction fuel with
  | zero => intro b s hs; cases hs
  | succ n ih =>
    intro b s hs
    unfold bbListAux at hs
    by_cases hb : b = 0
    · rw [if_pos hb] at hs; cases hs
    · rw [if_neg hb] at hs
      rcases List.mem_cons.mp hs with h | h
      · rw [h]; exact tzAux_le 64 b
      · exact ih _ s h

theorem bbList_le (b : Nat) : ∀ s ∈ bbList b, s ≤ 64 :=
  bbListAux_le 64 b

/-- Bits 16..19 of Move::new hold exactly the promoted argument: the fields
below cannot reach bit 16 and the flags enter at bit 20. -/
theorem mkMove_promotion_bits (source target piece promoted flags : Nat)
    (hs : source ≤ 64) (ht : target ≤ 64) (hp : piece < 16) (hpr : promoted < 16) :
    ((mkMove source target piece promoted flags >>> 16) &&& 0xF) = promoted := by
  have pow_le : ∀ {a b : Nat}, a ≤ b → (2 : Nat) ^ a ≤ 2 ^ b := fun h =>
    Nat.pow_le_pow_right (by norm_num) h
  apply Nat.eq_of_testBit_eq
  intro j
  rw [Nat.testBit_land, Nat.testBit_shiftRight]
  by_cases hj : j < 4
  · have h15 : Nat.testBit 0xF j = true := by
      interval_cases j <;> decide
    rw [h15, Bool.and_true]
    unfold mkMove
    rw [Nat.testBit_lor, Nat.testBit_lor, Nat.testBit_lor, Nat.testBit_lor]
    have hsb : source.testBit (16 + j) = false :=
      Nat.testBit_lt_two_pow
        (lt_of_le_of_lt hs (lt_of_lt_of_le (show (64 : Nat) < 2 ^ 7 by norm_num)
          (pow_le (show 7 ≤ 16 + j by omega))))
    have htb : (target <<< 6).testBit (16 + j) = false := by
      rw [Nat.testBit_shiftLeft]
      have : target.testBit (16 + j - 6) = false :=
        Nat.testBit_lt_two_pow
          (lt_of_le_of_lt ht (lt_of_lt_of_le (show (64 : Nat) < 2 ^ 7 by norm_num)
            (pow_le (show 7 ≤ 16 + j - 6 by omega))))
      rw [this, Bool.and_false]
    have hpb : (piece <<< 12).testBit (16 + j) = false := by
      rw [Nat.testBit_shiftLeft]
      have : piece.testBit (16 + j - 12) = false :=
        Nat.testBit_lt_two_pow
          (lt_of_lt_of_le hp (le_trans (show (16 : Nat) ≤ 2 ^ 4 by norm_num)
            (pow_le (show 4 ≤ 16 + j - 12 by omega))))
      rw [this, Bool.and_false]
    have hfb : (flags <<< 20).testBit (16 + j) = false := by
      rw [Nat.testBit_shiftLeft]
      have : decide (16 + j ≥ 20) = false := by
        simp only [decide_eq_false_iff_not]
        omega
      rw [this, Bool.false_and]
    have hprb : (promoted <<< 16).testBit (16 + j) = promoted.testBit j := by
      rw [Nat.testBit_shiftLeft]
      have h1 : decide (16 + j ≥ 16) = true := by
        simp only [decide_eq_true_eq]
        omega
      have h2 : 16 + j - 16 = j := by omega
      rw [h1, h2, Bool.true_and]
    rw [hsb, htb, hpb, hfb, hprb]
    simp
  · have h15 : Nat.testBit 0xF j = false :=
      Nat.testBit_lt_two_pow (lt_of_lt_of_le (show (0xF : Nat) < 2 ^ 4 by norm_num)
        (pow_le (show 4 ≤ j by omega)))
    rw [h15, Bool.and_false]
    exact (Nat.testBit_lt_two_pow
      (lt_of_lt_of_le hpr (le_trans (le_refl (2 ^ 4)) (pow_le (show 4 ≤ j by omega))))).symm

/-- Membership in the fold-with-append shape every generator uses. -/
theorem mem_foldr_app {α β : Type} (g : α → List β) :
    ∀ (l : List α) (acc : List β) (x : β),
      x ∈ l.foldr (fun s acc => g s ++ acc) acc ↔ (∃ s ∈ l, x ∈ g s) ∨ x ∈ acc := by
  intro l
  induction l with
  | nil => intro acc x; simp
  | cons a t ih =>
    intro acc x
    simp only [List.foldr_cons, List.mem_append, ih, List.mem_cons]
    constructor
    · rintro (hx | (⟨s, hs, hxs⟩ | hacc))
      · exact Or.inl ⟨a, Or.inl rfl, hx⟩
      · exact Or.inl ⟨s, Or.inr hs, hxs⟩
      · exact Or.inr hacc
    · rintro (⟨s, (hsa | hst), hxs⟩ | hacc)
      · rw [← hsa]; exact Or.inl hxs
      · exact Or.inr (Or.inl ⟨s, hst, hxs⟩)
      · exact Or.inr (Or.inr hacc)

theorem oneForward_le (s r : Nat) (h : oneForward s = some r) : r ≤ s := by
  unfold oneForward at h
  by_cases hs : 8 ≤ s
  · rw [if_pos hs] at h; cases h; omega
  · rw [if_neg hs] at h; cases h

theorem oneBackward_le (s r : Nat) (h : oneBackward s = some r) : r ≤ 63 := by
  unfold oneBackward at h
  by_cases hs : s + 8 ≤ 63
  · rw [if_pos hs] at h; cases h; omega
  · rw [if_neg hs] at h; cases h

theorem promoOption_facts (option : Nat) (h : option ∈ promotionOptionList) :
    option < 16 ∧ option ≤ 4 := by
  simp only [promotionOptionList, List.mem_cons, List.not_mem_nil, or_false] at h
  rcases h with h | h | h | h <;> subst h <;> norm_num

/-- The per-square move block of the pawn generator, over abstract side
parameters (step direction, promotion and double-push ranks, occupancies,
attack table, en-passant square): every move it emits has a promotion nibble
of at most 4. -/
theorem pawnGenAux (piece : Nat) (hp : piece < 16) (stepF : Nat → Option Nat)
    (hstep : ∀ s r, s ≤ 64 → stepF s = some r → r ≤ 64)
    (pRank iRank : Rank) (occB enemyOcc : Nat) (pattF : Nat → Nat) (epSq : Nat) :
    ∀ l : List Nat, (∀ s ∈ l, s ≤ 64) →
      ∀ mv ∈ l.foldr (fun square acc =>
        match stepF square with
        | none => acc
        | some oneFwd =>
          ((if getBit occB oneFwd = 0 then
              (if isOnRank square pRank then
                promotionOptionList.map (fun option => mkMove square oneFwd piece option 0)
              else [mkMove square oneFwd piece NO_PROMOTION 0]) ++
              (if isOnRank square iRank then
                match stepF oneFwd with
                | none => []
                | some twoFwd =>
                  if getBit occB twoFwd = 0 then
                    [mkMove square twoFwd piece NO_PROMOTION FLAG_DOUBLE_PUSH]
                  else []
              else [])
            else []) ++
          (bbList (pattF square &&& enemyOcc)).foldr
            (fun target acc2 =>
              (if isOnRank square pRank then
                promotionOptionList.map (fun option =>
                  mkMove square target piece option FLAG_CAPTURE)
              else [mkMove square target piece NO_PROMOTION FLAG_CAPTURE]) ++ acc2) [] ++
          (if epSq ≠ OFF_BOARD then
              if (pattF square &&& shl64 1 epSq) != 0 then
                [mkMove square (trailingZeros (pattF square &&& shl64 1 epSq))
                  piece NO_PROMOTION (FLAG_EN_PASSANT ||| FLAG_CAPTURE)]
              else []
            else [])) ++ acc) [],
      ((mv >>> 16) &&& 0xF) ≤ 4 := by
  intro l
  induction l with
  | nil => intro _ mv h; cases h
  | cons a t ih =>
    intro hle mv h
    have hat : a ≤ 64 := hle a (List.mem_cons_self a t)
    have htl : ∀ s ∈ t, s ≤ 64 := fun s hs => hle s (List.mem_cons_of_mem a hs)
    rw [List.foldr_cons] at h
    cases hf : stepF a with
    | none =>
      rw [hf] at h
      exact ih htl mv h
    | some oneFwd =>
      rw [hf] at h
      have hofw : oneFwd ≤ 64 := hstep a oneFwd hat hf
      rcases List.mem_append.mp h with h1 | h2
      swap
      · exact ih htl mv h2
      rcases List.mem_append.mp h1 with h12 | hep
      swap
      · by_cases hepav : epSq ≠ OFF_BOARD
        · rw [if_pos hepav] at hep
          by_cases hatt : (pattF a &&& shl64 1 epSq) != 0
          · rw [if_pos hatt] at hep
            rcases List.mem_singleton.mp hep with hmk
            rw [hmk, mkMove_promotion_bits a
              (trailingZeros (pattF a &&& shl64 1 epSq)) piece NO_PROMOTION
              (FLAG_EN_PASSANT ||| FLAG_CAPTURE) hat
              (tzAux_le 64 (pattF a &&& shl64 1 epSq)) hp
              (by norm_num [NO_PROMOTION])]
            norm_num [NO_PROMOTION]
          · rw [if_neg hatt] at hep; cases hep
        · rw [if_neg hepav] at hep; cases hep
      rcases List.mem_append.mp h12 with hp1 | hcap
      · by_cases hocc : getBit occB oneFwd = 0
        · rw [if_pos hocc] at hp1
          rcases List.mem_append.mp hp1 with hsingle | hdouble
          · by_cases hrank : isOnRank a pRank
            · rw [if_pos hrank] at hsingle
              rcases List.mem_map.mp hsingle with ⟨option, hopt, hmk⟩
              rw [← hmk, mkMove_promotion_bits a oneFwd piece option 0 hat hofw hp
                (promoOption_facts option hopt).1]
              exact (promoOption_facts option hopt).2
            · rw [if_neg hrank] at hsingle
              rcases List.mem_singleton.mp hsingle with hmk
              rw [hmk, mkMove_promotion_bits a oneFwd piece NO_PROMOTION 0 hat hofw hp
                (by norm_num [NO_PROMOTION])]
              norm_num [NO_PROMOTION]
          · by_cases hrank : isOnRank a iRank
            · rw [if_pos hrank] at hdouble
              cases hf2 : stepF oneFwd with
              | none =>
                rw [hf2] at hdouble
                exact absurd (hdouble : mv ∈ ([] : List Nat)) (List.not_mem_nil mv)
              | some twoFwd =>
                rw [hf2] at hdouble
                have hdouble2 : mv ∈ (if getBit occB twoFwd = 0 then
                    [mkMove a twoFwd piece NO_PROMOTION FLAG_DOUBLE_PUSH]
                  else []) := hdouble
                have h2le : twoFwd ≤ 64 := hstep oneFwd twoFwd hofw hf2
                by_cases hocc2 : getBit occB twoFwd = 0
                · rw [if_pos hocc2] at hdouble2
                  rcases List.mem_singleton.mp hdouble2 with hmk
                  rw [hmk, mkMove_promotion_bits a twoFwd piece NO_PROMOTION
                    FLAG_DOUBLE_PUSH hat h2le hp (by norm_num [NO_PROMOTION])]
                  norm_num [NO_PROMOTION]
                · rw [if_neg hocc2] at hdouble2
                  cases hdouble2
            · rw [if_neg hrank] at hdouble; cases hdouble
        · rw [if_neg hocc] at hp1; cases hp1
      have hcapaux : ∀ l2 : List Nat, (∀ s ∈ l2, s ≤ 64) →
            mv ∈ l2.foldr (fun target acc2 =>
              (if isOnRank a pRank then
                promotionOptionList.map (fun option =>
                  mkMove a target piece option FLAG_CAPTURE)
              else [mkMove a target piece NO_PROMOTION FLAG_CAPTURE]) ++ acc2) [] →
            ((mv >>> 16) &&& 0xF) ≤ 4 := by
          intro l2
          induction l2 with
          | nil => intro _ hm; cases hm
          | cons b t2 ih2 =>
            intro hle2 hm
            rw [List.foldr_cons] at hm
            rcases List.mem_append.mp hm with hm1 | hm2
            swap
            · exact ih2 (fun s hs => hle2 s (List.mem_cons_of_mem b hs)) hm2
            have hbt : b ≤ 64 := hle2 b (List.mem_cons_self b t2)
            by_cases hrank : isOnRank a pRank
            · rw [if_pos hrank] at hm1
              rcases List.mem_map.mp hm1 with ⟨option, hopt, hmk⟩
              rw [← hmk, mkMove_promotion_bits a b piece option FLAG_CAPTURE hat hbt hp
                (promoOption_facts option hopt).1]
              exact (promoOption_facts option hopt).2
            · rw [if_neg hrank] at hm1
              rcases List.mem_singleton.mp hm1 with hmk
              rw [hmk, mkMove_promotion_bits a b piece NO_PROMOTION FLAG_CAPTURE hat hbt hp
                (by norm_num [NO_PROMOTION])]
              norm_num [NO_PROMOTION]
      exact hcapaux _ (bbList_le _) hcap

/-- Every move the pawn generator pushes carries a promotion nibble of at
most 4 (NoPromotion or one of the four PromotedPieces options). -/
theorem promo_bound_pawn (p : Position) (board piece : Nat) (hp : piece < 16) :
    ∀ mv ∈ generatePawnMoves p board piece, ((mv >>> 16) &&& 0xF) ≤ 4 := by
  unfold generatePawnMoves
  cases hside : p.sideToMove with
  | both => intro mv h; cases h
  | white =>
    exact pawnGenAux piece hp (fun s => oneForward s)
      (fun s r hs hr => le_trans (oneForward_le s r hr) hs)
      Rank.seventh Rank.second (p.occupancies .both) (p.occupancies .black)
      (fun s => computePawnAttacks Side.white s) p.enPassant
      (bbList board) (bbList_le board)
  | black =>
    exact pawnGenAux piece hp (fun s => oneBackward s)
      (fun s r _ hr => le_trans (oneBackward_le s r hr) (by omega))
      Rank.second Rank.seventh (p.occupancies .both) (p.occupancies .white)
      (fun s => computePawnAttacks Side.black s) p.enPassant
      (bbList board) (bbList_le board)

/-- Every move the precomputed-attack generator pushes has promotion nibble
NoPromotion, hence at most 4. -/
theorem promo_bound_precomputed (p : Position) (piece board : Nat)
    (getAttacks : Nat → Nat) (hp : piece < 16) :
    ∀ mv ∈ generatePreComputedMoves p piece board getAttacks,
      ((mv >>> 16) &&& 0xF) ≤ 4 := by
  unfold generatePreComputedMoves
  cases henemy : p.sideToMove.enemy with
  | none =>
    intro mv h
    exact absurd (h : mv ∈ ([] : List Nat)) (List.not_mem_nil mv)
  | some enemy =>
    have aux : ∀ l : List Nat, (∀ s ∈ l, s ≤ 64) →
        ∀ mv ∈ l.foldr (fun square acc =>
          (bbList (getAttacks square &&& not64 (p.occupancies p.sideToMove))).foldr
            (fun target acc2 =>
              (if getBit (p.occupancies enemy) target != 0 then
                [mkMove square target piece NO_PROMOTION FLAG_CAPTURE]
              else [mkMove square target piece NO_PROMOTION 0]) ++ acc2) [] ++ acc) [],
        ((mv >>> 16) &&& 0xF) ≤ 4 := by
      intro l
      induction l with
      | nil => intro _ mv h; cases h
      | cons a t ih =>
        intro hle mv h
        have hat : a ≤ 64 := hle a (List.mem_cons_self a t)
        rw [List.foldr_cons] at h
        rcases List.mem_append.mp h with h1 | h2
        swap
        · exact ih (fun s hs => hle s (List.mem_cons_of_mem a hs)) mv h2
        have inner : ∀ l2 : List Nat, (∀ s ∈ l2, s ≤ 64) →
            mv ∈ l2.foldr (fun target acc2 =>
              (if getBit (p.occupancies enemy) target != 0 then
                [mkMove a target piece NO_PROMOTION FLAG_CAPTURE]
              else [mkMove a target piece NO_PROMOTION 0]) ++ acc2) [] →
            ((mv >>> 16) &&& 0xF) ≤ 4 := by
          intro l2
          induction l2 with
          | nil => intro _ hm; cases hm
          | cons b t2 ih2 =>
            intro hle2 hm
            rw [List.foldr_cons] at hm
            rcases List.mem_append.mp hm with hm1 | hm2
            swap
            · exact ih2 (fun s hs => hle2 s (List.mem_cons_of_mem b hs)) hm2
            have hbt : b ≤ 64 := hle2 b (List.mem_cons_self b t2)
            by_cases hcapq : getBit (p.occupancies enemy) b != 0
            · rw [if_pos hcapq] at hm1
              rcases List.mem_singleton.mp hm1 with hmk
              rw [hmk, mkMove_promotion_bits a b piece NO_PROMOTION FLAG_CAPTURE
                hat hbt hp (by norm_num [NO_PROMOTION])]
              norm_num [NO_PROMOTION]
            · rw [if_neg hcapq] at hm1
              rcases List.mem_singleton.mp hm1 with hmk
              rw [hmk, mkMove_promotion_bits a b piece NO_PROMOTION 0
                hat hbt hp (by norm_num [NO_PROMOTION])]
              norm_num [NO_PROMOTION]
        exact inner _ (bbList_le _) h1
    exact aux (bbList board) (bbList_le board)

/-- Any member of a castling emitter (two nested guards around one castling
move) has promotion nibble NoPromotion. -/
theorem kingCastleAux (piece ks t : Nat) (hks : ks ≤ 64) (ht : t ≤ 64)
    (hp : piece < 16) (c1 c2 : Prop) [inst1 : Decidable c1] [inst2 : Decidable c2] :
    ∀ mv ∈ (if c1 then
        (if c2 then [mkMove ks t piece NO_PROMOTION FLAG_CASTLING] else [])
      else ([] : List Nat)), ((mv >>> 16) &&& 0xF) ≤ 4 := by
  intro mv h
  by_cases h1 : c1
  · rw [if_pos h1] at h
    by_cases h2 : c2
    · rw [if_pos h2] at h
      rcases List.mem_singleton.mp h with hmk
      rw [hmk, mkMove_promotion_bits ks t piece NO_PROMOTION FLAG_CASTLING
        hks ht hp (by norm_num [NO_PROMOTION])]
      norm_num [NO_PROMOTION]
    · rw [if_neg h2] at h; cases h
  · rw [if_neg h1] at h; cases h

/-- Every move the king generator pushes has promotion nibble at most 4. -/
theorem promo_bound_king (p : Position) (board piece : Nat) (hp : piece < 16) :
    ∀ mv ∈ generateKingMoves p board piece, ((mv >>> 16) &&& 0xF) ≤ 4 := by
  unfold generateKingMoves
  cases hside : p.sideToMove with
  | both =>
    intro mv h
    exact absurd (h : mv ∈ ([] : List Nat)) (List.not_mem_nil mv)
  | white =>
    intro mv h
    rcases List.mem_append.mp h with h12 | hpre
    · rcases List.mem_append.mp h12 with hkc | hqc
      · exact kingCastleAux piece 60 62 (by norm_num) (by norm_num) hp _ _ mv hkc
      · exact kingCastleAux piece 60 58 (by norm_num) (by norm_num) hp _ _ mv hqc
    · exact promo_bound_precomputed p piece board computeKingAttacks hp mv hpre
  | black =>
    intro mv h
    rcases List.mem_append.mp h with h12 | hpre
    · rcases List.mem_append.mp h12 with hkc | hqc
      · exact kingCastleAux piece 4 6 (by norm_num) (by norm_num) hp _ _ mv hkc
      · exact kingCastleAux piece 4 2 (by norm_num) (by norm_num) hp _ _ mv hqc
    · exact promo_bound_precomputed p piece board computeKingAttacks hp mv hpre

/-- Every move generate_moves emits has promotion nibble at most 4. -/
theorem promo_bound_generateMoves (p : Position) :
    ∀ mv ∈ generateMoves p, ((mv >>> 16) &&& 0xF) ≤ 4 := by
  unfold generateMoves
  have aux : ∀ l : List Nat, (∀ i ∈ l, i < 16) →
      ∀ mv ∈ l.foldr (fun idx acc =>
        (if pieceSide idx ≠ p.sideToMove then []
         else if idx = WP ∨ idx = BP then generatePawnMoves p (p.pieces idx) idx
         else if idx = WK ∨ idx = BK then generateKingMoves p (p.pieces idx) idx
         else if idx = WN ∨ idx = BN then
           generatePreComputedMoves p idx (p.pieces idx) computeKnightAttacks
         else if idx = WB ∨ idx = BB then
           generatePreComputedMoves p idx (p.pieces idx)
             (fun sq => getBishopAttacks sq (p.occupancies .both))
         else if idx = WR ∨ idx = BR then
           generatePreComputedMoves p idx (p.pieces idx)
             (fun sq => getRookAttacks sq (p.occupancies .both))
         else
           generatePreComputedMoves p idx (p.pieces idx)
             (fun sq => getQueenAttacks sq (p.occupancies .both))) ++ acc) [],
      ((mv >>> 16) &&& 0xF) ≤ 4 := by
    intro l
    induction l with
    | nil => intro _ mv h; cases h
    | cons a t ih =>
      intro hle mv h
      rw [List.foldr_cons] at h
      rcases List.mem_append.mp h with h1 | h2
      swap
      · exact ih (fun i hi => hle i (List.mem_cons_of_mem a hi)) mv h2
      have hai : a < 16 := hle a (List.mem_cons_self a t)
      by_cases hs0 : pieceSide a ≠ p.sideToMove
      · rw [if_pos hs0] at h1; cases h1
      rw [if_neg hs0] at h1
      by_cases hpw : a = WP ∨ a = BP
      · rw [if_pos hpw] at h1
        exact promo_bound_pawn p (p.pieces a) a hai mv h1
      rw [if_neg hpw] at h1
      by_cases hk : a = WK ∨ a = BK
      · rw [if_pos hk] at h1
        exact promo_bound_king p (p.pieces a) a hai mv h1
      rw [if_neg hk] at h1
      by_cases hn : a = WN ∨ a = BN
      · rw [if_pos hn] at h1
        exact promo_bound_precomputed p a (p.pieces a) computeKnightAttacks hai mv h1
      rw [if_neg hn] at h1
      by_cases hb : a = WB ∨ a = BB
      · rw [if_pos hb] at h1
        exact promo_bound_precomputed p a (p.pieces a)
          (fun sq => getBishopAttacks sq (p.occupancies .both)) hai mv h1
      rw [if_neg hb] at h1
      by_cases hr : a = WR ∨ a = BR
      · rw [if_pos hr] at h1
        exact promo_bound_precomputed p a (p.pieces a)
          (fun sq => getRookAttacks sq (p.occupancies .both)) hai mv h1
      rw [if_neg hr] at h1
      exact promo_bound_precomputed p a (p.pieces a)
        (fun sq => getQueenAttacks sq (p.occupancies .both)) hai mv h1
  exact aux (List.range 12)
    (fun i hi => Nat.lt_of_lt_of_le (List.mem_range.mp hi) (by norm_num))

/-- C6 counterexample: in wPosPromo the black pawn on a2 promotes; the queen
promotion move generate_moves emits stores 4 (the PromotedPieces
discriminant for a queen) in bits 16..19, not the 0..11 piece index of the
black queen, which is 10. -/
theorem promotion_bits_claim_false :
    mkMove 48 56 BP 4 0 ∈ generateMoves wPosPromo ∧
    ((mkMove 48 56 BP 4 0 >>> 16) &&& 0xF) = 4 ∧
    promotedIntoPiece 4 .black = some BQ ∧ BQ = 10 ∧ (4 : Nat) ≠ 10 := by
  refine ⟨by decide, by decide, by decide, by decide, by decide⟩

/-- C6 (amended): bits 16..19 of the packed move word hold exactly the
PromotedPieces value passed to Move::new (0 = none, 1..4 = knight, bishop,
rook, queen of the moving side), and every move generate_moves emits keeps
that field at most 4 — it is never the 0..11 piece index of the promoted
piece. -/
theorem promotion_bits_discriminant (p : Position)
    (source target piece promoted flags : Nat)
    (hs : source ≤ 64) (ht : target ≤ 64) (hp : piece < 16) (hpr : promoted < 16) :
    ((mkMove source target piece promoted flags >>> 16) &&& 0xF) = promoted ∧
    ∀ mv ∈ generateMoves p, ((mv >>> 16) &&& 0xF) ≤ 4 :=
  ⟨mkMove_promotion_bits source target piece promoted flags hs ht hp hpr,
   promo_bound_generateMoves p⟩

/-- Witness for C6 at a concrete promotion move and position. -/
theorem promotion_bits_discriminant_witness :
    ((mkMove 48 57 BP 4 FLAG_CAPTURE >>> 16) &&& 0xF) = 4 ∧
    ∀ mv ∈ generateMoves wPosPromo, ((mv >>> 16) &&& 0xF) ≤ 4 :=
  promotion_bits_discriminant wPosPromo 48 57 BP 4 FLAG_CAPTURE
    (by decide) (by decide) (by decide) (by decide)

/-- One unfolding of the iterative-deepening loop at positive fuel. -/
theorem searchLoop_succ (fuel fuelN : Nat) (ctx : SearchCtx) (st : EngineState)
    (alpha beta : Int) (currDepth : Nat) :
    searchLoop (fuel + 1) fuelN ctx st alpha beta currDepth =
      if ctx.shouldStop currDepth st.search.nodes then some st
      else
        (negamax fuelN ctx { st with search := { st.search with followPv := true } }
            alpha beta currDepth).bind
          (fun r => searchLoop fuel fuelN ctx r.2
            (aspirationNext r.1 alpha beta currDepth).1
            (aspirationNext r.1 alpha beta currDepth).2.1
            (aspirationNext r.1 alpha beta currDepth).2.2) := rfl

/-- C4 counterexample: a depth-1 aspiration failure hands the next iteration
the full window at depth 2; the failed depth 1 is not searched again.  The
last two conjuncts exhibit a concrete failing iteration: on the mate fixture
the depth-1 score -49000 falls outside the window (-50, 50). -/
theorem aspiration_same_depth_claim_false :
    aspirationNext (-49000) (-50) 50 1 = (-INFINITY, INFINITY, 2) ∧
    (2 : Nat) ≠ 1 ∧
    (negamax 3 wCtx
      { wEngMate with search := { wEngMate.search with followPv := true } }
      (-50) 50 1).map Prod.fst = some (-49000) ∧
    ((-49000 : Int) ≤ -50 ∨ (-49000 : Int) ≥ 50) := by
  refine ⟨by decide, by decide, by decide, by decide⟩

/-- C4 (amended): in search_position, when a completed negamax call returns a
score outside the aspiration window, the loop continues with the full window
(-INFINITY, INFINITY) at the NEXT depth (the source increments curr_depth
before the continue); the failed depth is not re-searched. -/
theorem aspiration_fail_advances_depth (fuel fuelN : Nat) (ctx : SearchCtx)
    (st st1 : EngineState) (alpha beta s : Int) (d : Nat)
    (hst1 : st1 = { st with search := { st.search with followPv := true } })
    (hstop : ctx.shouldStop d st.search.nodes = false)
    (hr : (negamax fuelN ctx st1 alpha beta d).map Prod.fst = some s)
    (hfail : s ≤ alpha ∨ s ≥ beta) :
    searchLoop (fuel + 1) fuelN ctx st alpha beta d =
      (negamax fuelN ctx st1 alpha beta d).bind
        (fun r => searchLoop fuel fuelN ctx r.2 (-INFINITY) INFINITY (d + 1)) := by
  subst hst1
  rw [searchLoop_succ, if_neg (by simp [hstop])]
  cases hneg : negamax fuelN ctx
      { st with search := { st.search with followPv := true } } alpha beta d with
  | none => rfl
  | some r =>
    rw [hneg] at hr
    simp only [Option.map_some'] at hr
    injection hr with hr1
    have hfail2 : r.1 ≤ alpha ∨ r.1 ≥ beta := by rw [hr1]; exact hfail
    simp only [Option.some_bind]
    simp only [aspirationNext]
    rw [if_pos hfail2]

/-- Witness for C4 on the mate fixture: one failing depth-1 iteration. -/
theorem aspiration_fail_advances_depth_witness :
    searchLoop 1 3 wCtx wEngMate (-50) 50 1 =
      (negamax 3 wCtx
        { wEngMate with search := { wEngMate.search with followPv := true } }
        (-50) 50 1).bind
        (fun r => searchLoop 0 3 wCtx r.2 (-INFINITY) INFINITY 2) :=
  aspiration_fail_advances_depth 0 3 wCtx wEngMate
    { wEngMate with search := { wEngMate.search with followPv := true } }
    (-50) 50 (-49000) 1 rfl rfl (by decide) (by decide)

/-- Pointwise consequence of equal maps over the same list. -/
theorem list_map_eq_forall {α β : Type} (f g : α → β) :
    ∀ l : List α, l.map f = l.map g → ∀ x ∈ l, f x = g x := by
  intro l
  induction l with
  | nil => intro _ x hx; cases hx
  | cons a t ih =>
    intro h x hx
    simp only [List.map_cons, List.cons.injEq] at h
    rcases List.mem_cons.mp hx with rfl | hxt
    · exact h.1
    · exact ih h.2 x hxt

/-- The enable_pv_scoring fold only flips flags; the move buffer survives. -/
theorem pvScoringFold_moves (gamePly : Nat) :
    ∀ (l : List Nat) (st : SearchState),
      (l.foldl (fun st m =>
        if st.pvTable 0 gamePly = m then { st with scorePv := true, followPv := true }
        else st) st).moves = st.moves := by
  intro l
  induction l with
  | nil => intro st; rfl
  | cons a t ih =>
    intro st
    rw [List.foldl_cons, ih]
    by_cases h : st.pvTable 0 gamePly = a
    · rw [if_pos h]
    · rw [if_neg h]

/-- enable_pv_scoring keeps the move buffer. -/
theorem enablePvScoring_moves (s : SearchState) (gamePly : Nat) :
    (enablePvScoring s gamePly).moves = s.moves := by
  simp only [enablePvScoring]
  exact pvScoringFold_moves gamePly s.moves { s with followPv := false }

/-- The scoring fold of sort_moves pairs each buffered move with its score in
order. -/
theorem scoreFold_mapSnd (b : BoardState) :
    ∀ (l : List Nat) (acc : List (Int × Nat) × SearchState),
      ((l.foldl (fun (acc : List (Int × Nat) × SearchState) m =>
        let (sc, st) := scoreMove b acc.2 m
        (acc.1 ++ [(sc, m)], st)) acc).1).map Prod.snd =
      acc.1.map Prod.snd ++ l := by
  intro l
  induction l with
  | nil => intro acc; simp
  | cons a t ih =>
    intro acc
    rw [List.foldl_cons]
    have hstep := ih (acc.1 ++ [((scoreMove b acc.2 a).1, a)], (scoreMove b acc.2 a).2)
    rw [(rfl : (t.foldl (fun (acc : List (Int × Nat) × SearchState) m =>
        let (sc, st) := scoreMove b acc.2 m
        (acc.1 ++ [(sc, m)], st))
        (acc.1 ++ [((scoreMove b acc.2 a).1, a)], (scoreMove b acc.2 a).2)) =
       (t.foldl (fun (acc : List (Int × Nat) × SearchState) m =>
        let (sc, st) := scoreMove b acc.2 m
        (acc.1 ++ [(sc, m)], st))
        ((fun (acc : List (Int × Nat) × SearchState) m =>
          let (sc, st) := scoreMove b acc.2 m
          (acc.1 ++ [(sc, m)], st)) acc a)))] at hstep
    rw [hstep]
    simp

/-- sort_moves permutes the move buffer. -/
theorem sortMoves_moves_perm (b : BoardState) (s : SearchState) :
    (sortMoves b s).moves.Perm s.moves := by
  simp only [sortMoves]
  have hperm := List.perm_insertionSort (fun a c : Int × Nat => c.1 ≤ a.1)
    (s.moves.foldl (fun (acc : List (Int × Nat) × SearchState) m =>
      let (sc, st) := scoreMove b acc.2 m
      (acc.1 ++ [(sc, m)], st)) ([], s)).1
  have hmap := hperm.map Prod.snd
  rw [scoreFold_mapSnd b s.moves ([], s)] at hmap
  simpa using hmap

/-- recording a repetition keeps the position. -/
theorem recordRepetition_position (b : BoardState) :
    (recordRepetition b).position = b.position := rfl

/-- The per-move loop of negamax when every move is rejected as illegal:
control reaches the no-legal-moves epilogue with the original position and
ply, scoring mate-in-ply when in check and stalemate otherwise. -/
theorem nLoop_allFail (Z : ZTables)
    (child : EngineState → Int → Int → Nat → Option (Int × EngineState))
    (alpha beta : Int) (depth : Nat) (inCheck : Bool) (ttFlag : TTFlag) :
    ∀ (l : List Nat) (st : EngineState),
      (∀ mv ∈ l, makeMove Z st.board.position mv .allMoves =
        some (st.board.position, false)) →
      (nLoop Z child l st alpha beta depth inCheck ttFlag 0 0).map Prod.fst =
        some (if inCheck then -MATE_UPPER_BOUND + (st.board.ply : Int) else 0) := by
  intro l
  induction l with
  | nil =>
    intro st _
    simp only [nLoop]
    cases inCheck <;> simp
  | cons mv rest ih =>
    intro st hfail
    have hmv := hfail mv (List.mem_cons_self mv rest)
    simp only [nLoop, recordRepetition_position]
    rw [hmv]
    simp only [Option.bind_eq_bind, Option.some_bind]
    rw [if_pos trivial]
    exact ih _ (fun m hm => hfail m (List.mem_cons_of_mem mv hm))

/-- Membership transfer out of enable_pv_scoring. -/
theorem mem_enablePvScoring {mv : Nat} (s : SearchState) (gp : Nat)
    (h : mv ∈ (enablePvScoring s gp).moves) : mv ∈ s.moves := by
  rw [enablePvScoring_moves] at h; exact h

/-- The generated-move buffer fails wholesale: after sorting it, the negamax
move loop lands in the no-legal-moves epilogue. -/
theorem sorted_allFail (Z : ZTables)
    (child : EngineState → Int → Int → Nat → Option (Int × EngineState))
    (alpha beta : Int) (depth : Nat) (c : Bool) (E : EngineState)
    (hfail2 : ∀ mv ∈ E.search.moves,
      makeMove Z E.board.position mv .allMoves = some (E.board.position, false)) :
    (nLoop Z child (sortMoves E.board E.search).moves
      { tt := E.tt, board := E.board, search := sortMoves E.board E.search }
      alpha beta depth c .alpha 0 0).map Prod.fst =
    some (if c then -MATE_UPPER_BOUND + (E.board.ply : Int) else 0) :=
  nLoop_allFail Z child alpha beta depth c .alpha
    ((sortMoves E.board E.search).moves)
    { tt := E.tt, board := E.board, search := sortMoves E.board E.search }
    (fun mv hm => hfail2 mv ((sortMoves_moves_perm E.board E.search).subset hm))

/-- C8: in negamax, when no generated move is legal (every make_move returns
false), the returned score is -MATE_UPPER_BOUND + ply if the side to move is
in check and 0 otherwise. -/
theorem no_legal_moves_score (fuel : Nat) (ctx : SearchCtx) (st : EngineState)
    (alpha beta : Int) (depth kingSquare : Nat) (enemy : Side) (c : Bool)
    (hrep : ¬(st.board.ply ≠ 0 ∧ isRepetition st.board = true))
    (htt : ttGet st.tt st.board.position.key alpha beta depth st.board.ply = none)
    (hdepth : ¬ depth = 0)
    (hply : ¬ st.board.ply > MAX_PLY - 1)
    (hking : ownKingSquare st.board.position = some kingSquare)
    (henemy : st.board.position.sideToMove.enemy = some enemy)
    (hk64 : ¬ kingSquare ≥ 64)
    (hc : isSquareAttacked st.board.position kingSquare enemy = c)
    (hstop : ctx.shouldStop (if c then depth + 1 else depth) (st.search.nodes + 1) = false)
    (hnull : ¬(REDUCTION_LIMIT ≤ (if c then depth + 1 else depth) ∧ ¬ c = true ∧
      st.board.ply ≠ 0))
    (hfail : ∀ mv ∈ generateMoves st.board.position,
      makeMove ctx.Z st.board.position mv .allMoves = some (st.board.position, false)) :
    (negamax (fuel + 1) ctx st alpha beta depth).map Prod.fst =
      some (if c then -MATE_UPPER_BOUND + (st.board.ply : Int) else 0) := by
  simp only [negamax]
  rw [if_neg hrep]
  rw [htt]
  simp only []
  rw [if_neg hdepth]
  rw [if_neg hply]
  rw [hking, henemy]
  simp only [Option.bind_eq_bind, Option.some_bind]
  rw [if_neg hk64]
  rw [hc]
  rw [if_neg (by simp [hstop])]
  rw [if_neg hnull]
  simp only [pure, Option.some_bind]
  by_cases hfp : st.search.followPv = true
  · rw [if_pos hfp]
    refine sorted_allFail ctx.Z _ alpha beta _ c _ ?_
    intro mv hm
    exact hfail mv (mem_enablePvScoring _ _ hm)
  · rw [if_neg hfp]
    refine sorted_allFail ctx.Z _ alpha beta _ c _ ?_
    intro mv hm
    exact hfail mv hm

/-- Witness for C8: the checkmate fixture (white king h1, black queen g2,
black king g3, white to move) has no legal move and is in check, so depth-1
negamax returns -MATE_UPPER_BOUND + 0. -/
theorem no_legal_moves_score_witness :
    (negamax 3 wCtx wEngMate (-50000) 50000 1).map Prod.fst =
      some (if true then -MATE_UPPER_BOUND + ((0 : Nat) : Int) else 0) :=
  no_legal_moves_score 2 wCtx wEngMate (-50000) 50000 1 63 .black true
    (by decide) (by decide) (by decide) (by decide) (by decide) (by decide)
    (by decide) (by decide) (by decide) (by decide)
    (list_map_eq_forall _ _ _ rfl)

/-! Zobrist accounting toolkit: XOR folds, one-bit updates, and the
canonical form of the board hash. -/

theorem xorFold_nil (f : Nat → Nat) : xorFold f [] = 0 := rfl

theorem foldl_xor (f : Nat → Nat) :
    ∀ (l : List Nat) (init : Nat),
      l.foldl (fun k j => k ^^^ f j) init = init ^^^ xorFold f l := by
  intro l
  induction l with
  | nil => intro init; simp [xorFold]
  | cons a t ih =>
    intro init
    rw [List.foldl_cons, ih]
    have h2 : xorFold f (a :: t) = f a ^^^ xorFold f t := by
      show (t.foldl (fun k j => k ^^^ f j) (0 ^^^ f a)) = _
      rw [ih, Nat.zero_xor]
    rw [h2, Nat.xor_assoc]

theorem xorFold_cons (f : Nat → Nat) (a : Nat) (t : List Nat) :
    xorFold f (a :: t) = f a ^^^ xorFold f t := by
  show (t.foldl (fun k j => k ^^^ f j) (0 ^^^ f a)) = _
  rw [foldl_xor, Nat.zero_xor]

theorem xorFold_singleton (f : Nat → Nat) (a : Nat) : xorFold f [a] = f a := by
  rw [xorFold_cons, xorFold_nil, Nat.xor_zero]

theorem xorFold_append (f : Nat → Nat) (l1 l2 : List Nat) :
    xorFold f (l1 ++ l2) = xorFold f l1 ^^^ xorFold f l2 := by
  show (l1 ++ l2).foldl (fun k j => k ^^^ f j) 0 = _
  rw [List.foldl_append, foldl_xor]
  rfl

theorem xorFold_congr (g g' : Nat → Nat) :
    ∀ l : List Nat, (∀ j ∈ l, g j = g' j) → xorFold g l = xorFold g' l := by
  intro l
  induction l with
  | nil => intro _; rfl
  | cons a t ih =>
    intro h
    rw [xorFold_cons, xorFold_cons, h a (List.mem_cons_self a t),
      ih (fun j hj => h j (List.mem_cons_of_mem a hj))]

theorem xorFold_zero_fn : ∀ l : List Nat, xorFold (fun _ => 0) l = 0 := by
  intro l
  induction l with
  | nil => rfl
  | cons a t ih => rw [xorFold_cons, ih, Nat.xor_zero]

/-- One-point difference under an XOR fold over an initial range. -/
theorem xorFold_update_range (g g' : Nat → Nat) (s : Nat)
    (hag : ∀ j, j ≠ s → g j = g' j) :
    ∀ n : Nat, s < n →
      xorFold g (List.range n) = xorFold g' (List.range n) ^^^ (g s ^^^ g' s) := by
  intro n
  induction n with
  | zero => intro h; exact absurd h (Nat.not_lt_zero s)
  | succ m ih =>
    intro hs
    rw [List.range_succ, xorFold_append, xorFold_append, xorFold_singleton,
      xorFold_singleton]
    by_cases hsm : s = m
    · subst hsm
      rw [xorFold_congr g g' (List.range s)
        (fun j hj => hag j (Nat.ne_of_lt (List.mem_range.mp hj)))]
      apply Nat.eq_of_testBit_eq
      intro i
      simp [Nat.testBit_xor, Bool.xor_assoc, Bool.xor_comm, Bool.xor_left_comm]
    · have hlt : s < m := Nat.lt_of_le_of_ne (Nat.lt_succ_iff.mp hs) hsm
      rw [ih hlt, hag m (fun he => hsm he.symm)]
      apply Nat.eq_of_testBit_eq
      intro i
      simp [Nat.testBit_xor, Bool.xor_assoc, Bool.xor_comm, Bool.xor_left_comm]

/-- Bits of setBit: the target goes up, everything else is unchanged. -/
theorem testBit_setBit_self (b s : Nat) (hs : s < 64) :
    (setBit b s).testBit s = true := by
  simp only [setBit, Nat.one_shiftLeft, Nat.testBit_lor,
    (Nat.testBit_two_pow : (2 ^ s).testBit s = decide (s = s))]
  simp

theorem testBit_setBit_ne (b s j : Nat) (hj : j ≠ s) :
    (setBit b s).testBit j = b.testBit j := by
  simp only [setBit, Nat.one_shiftLeft, Nat.testBit_lor,
    (Nat.testBit_two_pow : (2 ^ s).testBit j = decide (s = j))]
  simp [show ¬ s = j from fun he => hj he.symm]

/-- Bits of clearBit: the target goes down; bits above 63 are also masked
off, so unchanged only holds below 64 (all boards are u64 anyway). -/
theorem testBit_clearBit_self (b s : Nat) (hs : s < 64) :
    (clearBit b s).testBit s = false := by
  simp only [clearBit, not64, U64_MASK, Nat.one_shiftLeft, Nat.testBit_land,
    Nat.testBit_xor, (Nat.testBit_two_pow : (2 ^ s).testBit s = decide (s = s)),
    Nat.testBit_two_pow_sub_one]
  simp [hs]

theorem testBit_clearBit_ne (b s j : Nat) (hb : b < 2 ^ 64) (hj : j ≠ s) :
    (clearBit b s).testBit j = b.testBit j := by
  simp only [clearBit, not64, U64_MASK, Nat.one_shiftLeft, Nat.testBit_land,
    Nat.testBit_xor, (Nat.testBit_two_pow : (2 ^ s).testBit j = decide (s = j)),
    Nat.testBit_two_pow_sub_one]
  by_cases hj64 : j < 64
  · simp [show ¬ s = j from fun he => hj he.symm, hj64]
  · have hbf : b.testBit j = false :=
      Nat.testBit_eq_false_of_lt
        (lt_of_lt_of_le hb (Nat.pow_le_pow_right (by norm_num) (Nat.le_of_not_lt hj64)))
    simp [hbf]

theorem setBit_lt (b s : Nat) (hb : b < 2 ^ 64) (hs : s < 64) :
    setBit b s < 2 ^ 64 := by
  have h2 : (1 <<< s : Nat) < 2 ^ 64 := by
    rw [Nat.one_shiftLeft]
    exact Nat.pow_lt_pow_right (by norm_num) hs
  exact Nat.or_lt_two_pow hb h2

theorem clearBit_lt (b s : Nat) (hb : b < 2 ^ 64) : clearBit b s < 2 ^ 64 :=
  Nat.lt_of_le_of_lt Nat.and_le_left hb

/-- bitXor over a one-bit set: the new square's key joins the XOR. -/
theorem bitXor_setBit (f : Nat → Nat) (b s : Nat) (hb : b < 2 ^ 64) (hs : s < 64)
    (hbit : b.testBit s = false) :
    bitXor f (setBit b s) = bitXor f b ^^^ f s := by
  have h := xorFold_update_range
    (fun j => if (setBit b s).testBit j then f j else 0)
    (fun j => if b.testBit j then f j else 0) s
    (fun j hj => by
      show (if (setBit b s).testBit j = true then f j else 0) =
        (if b.testBit j = true then f j else 0)
      rw [testBit_setBit_ne b s j hj]) 64 hs
  simp only [] at h
  rw [testBit_setBit_self b s hs, hbit] at h
  simp only [if_pos rfl, if_neg (by decide : ¬ false = true), Nat.xor_zero] at h
  show xorFold (fun j => if (setBit b s).testBit j then f j else 0) (List.range 64) = _
  exact h

/-- bitXor over a one-bit clear: the old square's key leaves the XOR. -/
theorem bitXor_clearBit (f : Nat → Nat) (b s : Nat) (hb : b < 2 ^ 64) (hs : s < 64)
    (hbit : b.testBit s = true) :
    bitXor f (clearBit b s) = bitXor f b ^^^ f s := by
  have h := xorFold_update_range
    (fun j => if (clearBit b s).testBit j then f j else 0)
    (fun j => if b.testBit j then f j else 0) s
    (fun j hj => by
      show (if (clearBit b s).testBit j = true then f j else 0) =
        (if b.testBit j = true then f j else 0)
      rw [testBit_clearBit_ne b s j hb hj]) 64 hs
  simp only [] at h
  rw [testBit_clearBit_self b s hs, hbit] at h
  simp only [if_pos rfl, if_neg (by decide : ¬ false = true), Nat.zero_xor] at h
  show xorFold (fun j => if (clearBit b s).testBit j then f j else 0) (List.range 64) = _
  exact h

theorem bitXor_zero (f : Nat → Nat) : bitXor f 0 = 0 := by
  show xorFold (fun j => if (0 : Nat).testBit j then f j else 0) (List.range 64) = 0
  rw [xorFold_congr _ (fun _ => 0) (List.range 64)
    (fun j _ => by rw [Nat.zero_testBit]; simp)]
  exact xorFold_zero_fn _

/-- tzAux finds the lowest set bit: enough fuel makes it a set bit below
which everything is clear. -/
theorem tzAux_spec : ∀ (fuel b : Nat), b ≠ 0 → b < 2 ^ fuel →
    b.testBit (tzAux b fuel) = true ∧ ∀ j < tzAux b fuel, b.testBit j = false := by
  intro fuel
  induction fuel with
  | zero =>
    intro b hb hlt
    exact absurd (Nat.lt_one_iff.mp hlt) hb
  | succ n ih =>
    intro b hb hlt
    by_cases hodd : b % 2 = 1
    · constructor
      · show b.testBit (if b % 2 = 1 then 0 else tzAux (b / 2) n + 1) = true
        rw [if_pos hodd, Nat.testBit_zero]
        simp [hodd]
      · intro j hj
        rw [show tzAux b (n + 1) = 0 from by
          show (if b % 2 = 1 then 0 else tzAux (b / 2) n + 1) = 0
          rw [if_pos hodd]] at hj
        exact absurd hj (Nat.not_lt_zero j)
    · have hb2 : b / 2 ≠ 0 := by omega
      have hlt2 : b / 2 < 2 ^ n :=
        Nat.div_lt_of_lt_mul (by rw [← Nat.pow_succ']; exact hlt)
      obtain ⟨h1, h2⟩ := ih (b / 2) hb2 hlt2
      have htz : tzAux b (n + 1) = tzAux (b / 2) n + 1 := by
        show (if b % 2 = 1 then 0 else tzAux (b / 2) n + 1) = _
        rw [if_neg hodd]
      rw [htz]
      constructor
      · rw [Nat.testBit_succ]
        exact h1
      · intro j hj
        cases j with
        | zero =>
          rw [Nat.testBit_zero]
          simp [hodd]
        | succ k =>
          rw [Nat.testBit_succ]
          exact h2 k (Nat.lt_of_succ_lt_succ hj)

/-- XOR over the spanned square list equals the canonical bit XOR. -/
theorem bbListAux_xorFold (f : Nat → Nat) :
    ∀ (fuel b c : Nat), b < 2 ^ 64 → (∀ j < c, b.testBit j = false) →
      64 - c ≤ fuel → xorFold f (bbListAux b fuel) = bitXor f b := by
  intro fuel
  induction fuel with
  | zero =>
    intro b c hb hc hfc
    have hc64 : 64 ≤ c := by omega
    have hb0 : b = 0 := by
      apply Nat.eq_of_testBit_eq
      intro i
      rw [Nat.zero_testBit]
      by_cases hi : i < 64
      · exact hc i (lt_of_lt_of_le hi hc64)
      · exact Nat.testBit_eq_false_of_lt
          (lt_of_lt_of_le hb (Nat.pow_le_pow_right (by norm_num) (Nat.le_of_not_lt hi)))
    subst hb0
    rw [bitXor_zero]
    rfl
  | succ n ih =>
    intro b c hb hc hfc
    by_cases hb0 : b = 0
    · subst hb0
      rw [bitXor_zero]
      show xorFold f [] = 0
      rfl
    · have hspec : b.testBit (trailingZeros b) = true ∧
          ∀ j < trailingZeros b, b.testBit j = false := tzAux_spec 64 b hb0 hb
      have hstep : bbListAux b (n + 1) =
          trailingZeros b :: bbListAux (clearBit b (trailingZeros b)) n := by
        show (if b = 0 then []
          else
            let s := trailingZeros b
            s :: bbListAux (clearBit b s) n) = _
        rw [if_neg hb0]
      have htz64 : trailingZeros b < 64 := by
        by_contra hge
        have := Nat.testBit_eq_false_of_lt
          (lt_of_lt_of_le hb (Nat.pow_le_pow_right (by norm_num) (Nat.le_of_not_lt hge)))
        rw [this] at hspec
        exact Bool.false_ne_true hspec.1
      have hcs : c ≤ trailingZeros b := by
        by_contra hgt
        have := hc (trailingZeros b) (Nat.lt_of_not_le hgt)
        rw [this] at hspec
        exact Bool.false_ne_true hspec.1
      have hclear : ∀ j < trailingZeros b + 1,
          (clearBit b (trailingZeros b)).testBit j = false := by
        intro j hj
        by_cases hjs : j = trailingZeros b
        · subst hjs
          exact testBit_clearBit_self b (trailingZeros b) htz64
        · rw [testBit_clearBit_ne b (trailingZeros b) j hb hjs]
          exact hspec.2 j (by omega)
      rw [hstep, xorFold_cons]
      rw [ih (clearBit b (trailingZeros b)) (trailingZeros b + 1)
        (clearBit_lt b (trailingZeros b) hb) hclear (by omega)]
      rw [bitXor_clearBit f b (trailingZeros b) hb htz64 hspec.1]
      apply Nat.eq_of_testBit_eq
      intro i
      simp [Nat.testBit_xor, Bool.xor_assoc, Bool.xor_comm, Bool.xor_left_comm]

/-- BitBoard iteration XORs exactly the set squares' keys. -/
theorem bbList_xorFold (f : Nat → Nat) (b : Nat) (hb : b < 2 ^ 64) :
    xorFold f (bbList b) = bitXor f b :=
  bbListAux_xorFold f 64 b 0 hb (fun j hj => absurd hj (Nat.not_lt_zero j)) (by omega)

/-- Updating one board keeps the twelve boards well-formed. -/
theorem wfPieces_update (boards : Nat → Nat) (p v : Nat) (hw : wfPieces boards)
    (hv : v < 2 ^ 64) : wfPieces (Function.update boards p v) := by
  intro q hq
  by_cases hqp : q = p
  · subst hqp; rw [Function.update_same]; exact hv
  · rw [Function.update_noteq hqp]; exact hw q hq

/-- The from-scratch board hash in canonical form: the XOR over pieces of
the per-board bit XOR. -/
theorem hashBoards_canonical (Z : ZTables) (boards : Nat → Nat) (hw : wfPieces boards) :
    hashBoards Z boards =
      xorFold (fun p => bitXor (Z.piecesTable p) (boards p)) (List.range 12) := by
  show (List.range 12).foldl
    (fun key piece => (bbList (boards piece)).foldl
      (fun key square => key ^^^ Z.piecesTable piece square) key) 0 = _
  simp only [foldl_xor, Nat.zero_xor]
  exact xorFold_congr _ _ (List.range 12)
    (fun p hp => bbList_xorFold (Z.piecesTable p) (boards p)
      (hw p (List.mem_range.mp hp)))

/-- Replacing one board replaces its contribution to the board hash. -/
theorem hashBoards_update (Z : ZTables) (boards : Nat → Nat) (p v : Nat)
    (hw : wfPieces boards) (hp : p < 12) (hv : v < 2 ^ 64) :
    hashBoards Z (Function.update boards p v) =
      hashBoards Z boards ^^^ (bitXor (Z.piecesTable p) (boards p) ^^^
        bitXor (Z.piecesTable p) v) := by
  rw [hashBoards_canonical Z _ (wfPieces_update boards p v hw hv),
    hashBoards_canonical Z boards hw]
  have h := xorFold_update_range
    (fun q => bitXor (Z.piecesTable q) (Function.update boards p v q))
    (fun q => bitXor (Z.piecesTable q) (boards q)) p
    (fun j hj => by
      show bitXor (Z.piecesTable j) (Function.update boards p v j) =
        bitXor (Z.piecesTable j) (boards j)
      rw [Function.update_noteq hj]) 12 hp
  simp only [] at h
  rw [Function.update_same] at h
  rw [h]
  apply Nat.eq_of_testBit_eq
  intro i
  simp [Nat.testBit_xor, Bool.xor_assoc, Bool.xor_comm, Bool.xor_left_comm]

/-- Clearing an occupied square XORs its key out of the board hash. -/
theorem hashBoards_clear (Z : ZTables) (boards : Nat → Nat) (p s : Nat)
    (hw : wfPieces boards) (hp : p < 12) (hs : s < 64)
    (hbit : (boards p).testBit s = true) :
    hashBoards Z (Function.update boards p (clearBit (boards p) s)) =
      hashBoards Z boards ^^^ Z.piecesTable p s := by
  rw [hashBoards_update Z boards p _ hw hp (clearBit_lt _ _ (hw p hp))]
  rw [bitXor_clearBit (Z.piecesTable p) (boards p) s (hw p hp) hs hbit]
  apply Nat.eq_of_testBit_eq
  intro i
  simp [Nat.testBit_xor, Bool.xor_assoc, Bool.xor_comm, Bool.xor_left_comm]

/-- Filling a free square XORs its key into the board hash. -/
theorem hashBoards_set (Z : ZTables) (boards : Nat → Nat) (p s : Nat)
    (hw : wfPieces boards) (hp : p < 12) (hs : s < 64)
    (hbit : (boards p).testBit s = false) :
    hashBoards Z (Function.update boards p (setBit (boards p) s)) =
      hashBoards Z boards ^^^ Z.piecesTable p s := by
  rw [hashBoards_update Z boards p _ hw hp (setBit_lt _ _ (hw p hp) hs)]
  rw [bitXor_setBit (Z.piecesTable p) (boards p) s (hw p hp) hs hbit]
  apply Nat.eq_of_testBit_eq
  intro i
  simp [Nat.testBit_xor, Bool.xor_assoc, Bool.xor_comm, Bool.xor_left_comm]

/-- Moving a piece from its source to its target XORs both squares' keys. -/
theorem hashBoards_move (Z : ZTables) (boards : Nat → Nat) (p s t : Nat)
    (hw : wfPieces boards) (hp : p < 12) (hs : s < 64) (ht : t < 64)
    (hbs : (boards p).testBit s = true) (hbt : (boards p).testBit t = false) :
    hashBoards Z (Function.update boards p (setBit (clearBit (boards p) s) t)) =
      hashBoards Z boards ^^^ Z.piecesTable p s ^^^ Z.piecesTable p t := by
  have hst : t ≠ s := by
    intro he
    rw [he] at hbt
    rw [hbs] at hbt
    cases hbt
  have hct : (clearBit (boards p) s).testBit t = false := by
    rw [testBit_clearBit_ne (boards p) s t (hw p hp) hst]
    exact hbt
  rw [hashBoards_update Z boards p _ hw hp
    (setBit_lt _ _ (clearBit_lt _ _ (hw p hp)) ht)]
  rw [bitXor_setBit (Z.piecesTable p) _ t (clearBit_lt _ _ (hw p hp)) ht hct]
  rw [bitXor_clearBit (Z.piecesTable p) (boards p) s (hw p hp) hs hbs]
  apply Nat.eq_of_testBit_eq
  intro i
  simp [Nat.testBit_xor, Bool.xor_assoc, Bool.xor_comm, Bool.xor_left_comm]

/-- hash_position as a flat XOR of its four contributions. -/
theorem hashPosition_eq (Z : ZTables) (boards : Nat → Nat) (stm : Side)
    (ep cr : Nat) :
    hashPosition Z boards stm ep cr =
      hashBoards Z boards ^^^ epTerm Z ep ^^^ Z.castlingRights cr ^^^
        sideTerm Z stm := by
  simp only [hashPosition, epTerm, sideTerm]
  by_cases hep : squareAvailable ep = true
  · rw [if_pos hep, if_pos hep]
    by_cases hstm : stm = Side.black
    · rw [if_pos hstm, if_pos hstm]
    · rw [if_neg hstm, if_neg hstm, Nat.xor_zero]
  · rw [if_neg hep, if_neg hep]
    by_cases hstm : stm = Side.black
    · rw [if_pos hstm, if_pos hstm]
      apply Nat.eq_of_testBit_eq
      intro i
      simp [Nat.testBit_xor, Bool.xor_assoc, Bool.xor_comm, Bool.xor_left_comm]
    · rw [if_neg hstm, if_neg hstm, Nat.xor_zero, Nat.xor_zero]

/-- get_bit is nonzero exactly on a set bit. -/
theorem getBit_ne_iff (b t : Nat) : (getBit b t != 0) = b.testBit t := by
  show ((b &&& (1 <<< t)) != 0) = b.testBit t
  rw [Nat.one_shiftLeft, Nat.and_two_pow]
  cases h : b.testBit t <;> simp [h, Nat.pow_eq_zero]

theorem moveSource_lt (mv : Nat) : moveSource mv < 64 :=
  Nat.lt_of_le_of_lt Nat.and_le_right (by norm_num)

theorem moveTarget_lt (mv : Nat) : moveTarget mv < 64 :=
  Nat.lt_of_le_of_lt Nat.and_le_right (by norm_num)

/-- The capture scan preserves the running hash-key relation, keeps the
boards well-formed, clears at most the target square of one scanned board,
and leaves unscanned boards alone. -/
theorem captureScan_spec (Z : ZTables) (t : Nat) (ht : t < 64) :
    ∀ (range : List Nat) (pieces : Nat → Nat) (key : Nat),
      (∀ q ∈ range, q < 12) → wfPieces pieces →
      (hashBoards Z (captureScan Z t range pieces key).1 ^^^
          (captureScan Z t range pieces key).2 = hashBoards Z pieces ^^^ key) ∧
      wfPieces (captureScan Z t range pieces key).1 ∧
      (∀ q, (captureScan Z t range pieces key).1 q = pieces q ∨
        (captureScan Z t range pieces key).1 q = clearBit (pieces q) t) ∧
      (∀ q, q ∉ range → (captureScan Z t range pieces key).1 q = pieces q) := by
  intro range
  induction range with
  | nil =>
    intro pieces key _ hw
    exact ⟨rfl, hw, fun q => Or.inl rfl, fun q _ => rfl⟩
  | cons a rest ih =>
    intro pieces key hr hw
    have ha : a < 12 := hr a (List.mem_cons_self a rest)
    by_cases hg : (getBit (pieces a) t != 0) = true
    · have hstep : captureScan Z t (a :: rest) pieces key =
          (Function.update pieces a (clearBit (pieces a) t),
           key ^^^ Z.piecesTable a t) := by
        show (if getBit (pieces a) t != 0 then
            (Function.update pieces a (clearBit (pieces a) t),
             key ^^^ Z.piecesTable a t)
          else captureScan Z t rest pieces key) = _
        rw [if_pos hg]
      rw [hstep]
      have hbit : (pieces a).testBit t = true := by rw [← getBit_ne_iff]; exact hg
      refine ⟨?_, wfPieces_update pieces a _ hw (clearBit_lt _ _ (hw a ha)), ?_, ?_⟩
      · show hashBoards Z (Function.update pieces a (clearBit (pieces a) t)) ^^^
          (key ^^^ Z.piecesTable a t) = hashBoards Z pieces ^^^ key
        rw [hashBoards_clear Z pieces a t hw ha ht hbit]
        apply Nat.eq_of_testBit_eq
        intro i
        simp [Nat.testBit_xor, Bool.xor_assoc, Bool.xor_comm, Bool.xor_left_comm]
      · intro q
        show Function.update pieces a (clearBit (pieces a) t) q = pieces q ∨
          Function.update pieces a (clearBit (pieces a) t) q = clearBit (pieces q) t
        by_cases hq : q = a
        · subst hq
          rw [Function.update_same]
          exact Or.inr rfl
        · rw [Function.update_noteq hq]
          exact Or.inl rfl
      · intro q hq
        show Function.update pieces a (clearBit (pieces a) t) q = pieces q
        rw [Function.update_noteq
          (fun he => hq (by rw [he]; exact List.mem_cons_self a rest))]
    · have hstep : captureScan Z t (a :: rest) pieces key =
          captureScan Z t rest pieces key := by
        show (if getBit (pieces a) t != 0 then
            (Function.update pieces a (clearBit (pieces a) t),
             key ^^^ Z.piecesTable a t)
          else captureScan Z t rest pieces key) = _
        rw [if_neg hg]
      rw [hstep]
      obtain ⟨h1, h2, h3, h4⟩ :=
        ih pieces key (fun q hq => hr q (List.mem_cons_of_mem a hq)) hw
      exact ⟨h1, h2, h3, fun q hq => h4 q (fun hm => hq (List.mem_cons_of_mem a hm))⟩

theorem xor_shift (a b c : Nat) (h : a ^^^ b = c) : b = a ^^^ c := by
  apply Nat.eq_of_testBit_eq
  intro i
  have e := congrArg (fun x => Nat.testBit x i) h
  simp only [Nat.testBit_xor] at e ⊢
  cases hb : a.testBit i <;> simp_all

theorem xor_left_cancel' (b c : Nat) : b ^^^ (b ^^^ c) = c := by
  apply Nat.eq_of_testBit_eq
  intro i
  simp [Nat.testBit_xor, Bool.xor_assoc, Bool.xor_comm, Bool.xor_left_comm]

theorem xor_key_step2 (H C T1 T2 k : Nat) (hk : k = H ^^^ C) :
    k ^^^ T1 ^^^ T2 = (H ^^^ T1 ^^^ T2) ^^^ C := by
  subst hk
  apply Nat.eq_of_testBit_eq
  intro i
  simp [Nat.testBit_xor, Bool.xor_assoc, Bool.xor_comm, Bool.xor_left_comm]

theorem xor_key_step1 (H C T k : Nat) (hk : k = H ^^^ C) :
    k ^^^ T = (H ^^^ T) ^^^ C := by
  subst hk
  apply Nat.eq_of_testBit_eq
  intro i
  simp [Nat.testBit_xor, Bool.xor_assoc, Bool.xor_comm, Bool.xor_left_comm]

/-- The unconditional en-passant key clear, as an epTerm XOR. -/
theorem ep_clear_key (Z : ZTables) (key e : Nat) :
    (if squareAvailable e then key ^^^ Z.enPassant e else key) =
      key ^^^ epTerm Z e := by
  by_cases h : squareAvailable e = true
  · rw [if_pos h]
    simp [epTerm, h]
  · rw [if_neg h]
    simp [epTerm, h]

/-- Side-key flip under Side::enemy. -/
theorem sideTerm_enemy (Z : ZTables) (side newSide : Side)
    (h : side.enemy = some newSide) :
    sideTerm Z newSide = sideTerm Z side ^^^ Z.sideKey := by
  cases side with
  | white =>
    have : newSide = Side.black := by simpa [Side.enemy] using h.symm
    subst this
    simp [sideTerm, Nat.zero_xor]
  | black =>
    have : newSide = Side.white := by simpa [Side.enemy] using h.symm
    subst this
    simp [sideTerm, Nat.xor_self]
  | both => simp [Side.enemy] at h

/-- Capture stage of make_move: preserves the key relation, well-formedness,
only ever clears the target bit of one board, and leaves boards outside the
scanned enemy range untouched. -/
theorem stage_capture (Z : ZTables) (mv : Nat) (side : Side) (pieces : Nat → Nat)
    (key C t : Nat) (pk : (Nat → Nat) × Nat) (ht : t < 64) (hw : wfPieces pieces)
    (hinv : key = hashBoards Z pieces ^^^ C)
    (hx : captureStep Z side mv t pieces key = some pk) :
    pk.2 = hashBoards Z pk.1 ^^^ C ∧ wfPieces pk.1 ∧
    (∀ q, pk.1 q = pieces q ∨ pk.1 q = clearBit (pieces q) t) ∧
    (side = Side.white → ∀ q, q ∉ blackPieceList → pk.1 q = pieces q) ∧
    (side = Side.black → ∀ q, q ∉ whitePieceList → pk.1 q = pieces q) := by
  unfold captureStep at hx
  by_cases hc : moveIsCapture mv = true
  · rw [if_pos hc] at hx
    cases side with
    | both => simp [captureRange] at hx
    | white =>
      simp only [captureRange, Option.some_bind, Option.some.injEq] at hx
      obtain ⟨h1, h2, h3, h4⟩ :=
        captureScan_spec Z t ht blackPieceList pieces key (by decide) hw
      rw [hx] at h1 h2 h3 h4
      refine ⟨?_, h2, h3, fun _ => h4, fun hb => absurd hb (by decide)⟩
      have hk := xor_shift _ _ _ h1
      rw [hinv, xor_left_cancel'] at hk
      exact hk
    | black =>
      simp only [captureRange, Option.some_bind, Option.some.injEq] at hx
      obtain ⟨h1, h2, h3, h4⟩ :=
        captureScan_spec Z t ht whitePieceList pieces key (by decide) hw
      rw [hx] at h1 h2 h3 h4
      refine ⟨?_, h2, h3, fun hb => absurd hb (by decide), fun _ => h4⟩
      have hk := xor_shift _ _ _ h1
      rw [hinv, xor_left_cancel'] at hk
      exact hk
  · rw [if_neg hc] at hx
    simp only [Option.some.injEq] at hx
    rw [← hx]
    exact ⟨hinv, hw, fun q => Or.inl rfl, fun _ q _ => rfl, fun _ q _ => rfl⟩

/-- A board that is at most target-cleared keeps every other bit. -/
theorem shape_testBit (pieces pieces' : Nat → Nat) (t : Nat) (hw : wfPieces pieces)
    (hshape : ∀ q, pieces' q = pieces q ∨ pieces' q = clearBit (pieces q) t) :
    ∀ q j, q < 12 → j ≠ t → (pieces' q).testBit j = (pieces q).testBit j := by
  intro q j hq hj
  rcases hshape q with h | h
  · rw [h]
  · rw [h, testBit_clearBit_ne (pieces q) t j (hw q hq) hj]

/-- Promotion stage of make_move: preserves the key relation and
well-formedness, and only touches the target bit of any board. -/
theorem stage_promo (Z : ZTables) (side : Side) (promo : Nat) (pieces : Nat → Nat)
    (key C t : Nat) (pk : (Nat → Nat) × Nat) (ht : t < 64) (hw : wfPieces pieces)
    (hinv : key = hashBoards Z pieces ^^^ C)
    (hx : promoStep Z side promo t pieces key = some pk)
    (hfacts : isPromoting promo = true → ∀ pawnSide promotedPiece,
      promoPawnPiece side = some pawnSide →
      promotedIntoPiece promo side = some promotedPiece →
      (pieces pawnSide).testBit t = true ∧
      (pieces promotedPiece).testBit t = false ∧
      promotedPiece ≠ pawnSide ∧ pawnSide < 12 ∧ promotedPiece < 12) :
    pk.2 = hashBoards Z pk.1 ^^^ C ∧ wfPieces pk.1 ∧
    (∀ q j, q < 12 → j ≠ t → (pk.1 q).testBit j = (pieces q).testBit j) := by
  unfold promoStep at hx
  by_cases hp : isPromoting promo = true
  · rw [if_pos hp] at hx
    cases side with
    | both => simp [promoPawnPiece] at hx
    | white =>
      cases hpp : promotedIntoPiece promo Side.white with
      | none => rw [hpp] at hx; simp [promoPawnPiece] at hx
      | some pp =>
        rw [hpp] at hx
        simp only [promoPawnPiece, Option.some_bind, Option.some.injEq] at hx
        obtain ⟨hb1, hb2, hne, hlt1, hlt2⟩ := hfacts hp WP pp rfl hpp
        have hw1 : wfPieces (Function.update pieces WP (clearBit (pieces WP) t)) :=
          wfPieces_update pieces WP _ hw (clearBit_lt _ _ (hw WP hlt1))
        have hb2' : ((Function.update pieces WP (clearBit (pieces WP) t)) pp).testBit t
            = false := by
          rw [Function.update_noteq hne]
          exact hb2
        have hH1 := hashBoards_clear Z pieces WP t hw hlt1 ht hb1
        have hH2 := hashBoards_set Z
          (Function.update pieces WP (clearBit (pieces WP) t)) pp t hw1 hlt2 ht hb2'
        rw [← hx]
        refine ⟨?_, ?_, ?_⟩
        · show key ^^^ Z.piecesTable WP t ^^^ Z.piecesTable pp t = _
          rw [xor_key_step2 _ _ _ _ _ hinv, hH2, hH1]
        · exact wfPieces_update _ pp _ hw1
            (setBit_lt _ _ (hw1 pp hlt2) ht)
        · intro q j hq hj
          show (Function.update
            (Function.update pieces WP (clearBit (pieces WP) t)) pp
            (setBit ((Function.update pieces WP (clearBit (pieces WP) t)) pp) t)
              q).testBit j = (pieces q).testBit j
          by_cases hqpp : q = pp
          · subst hqpp
            rw [Function.update_same, testBit_setBit_ne _ t j hj]
            rw [Function.update_noteq hne]
          · rw [Function.update_noteq hqpp]
            by_cases hqwp : q = WP
            · subst hqwp
              rw [Function.update_same,
                testBit_clearBit_ne (pieces WP) t j (hw WP hq) hj]
            · rw [Function.update_noteq hqwp]
    | black =>
      cases hpp : promotedIntoPiece promo Side.black with
      | none => rw [hpp] at hx; simp [promoPawnPiece] at hx
      | some pp =>
        rw [hpp] at hx
        simp only [promoPawnPiece, Option.some_bind, Option.some.injEq] at hx
        obtain ⟨hb1, hb2, hne, hlt1, hlt2⟩ := hfacts hp BP pp rfl hpp
        have hw1 : wfPieces (Function.update pieces BP (clearBit (pieces BP) t)) :=
          wfPieces_update pieces BP _ hw (clearBit_lt _ _ (hw BP hlt1))
        have hb2' : ((Function.update pieces BP (clearBit (pieces BP) t)) pp).testBit t
            = false := by
          rw [Function.update_noteq hne]
          exact hb2
        have hH1 := hashBoards_clear Z pieces BP t hw hlt1 ht hb1
        have hH2 := hashBoards_set Z
          (Function.update pieces BP (clearBit (pieces BP) t)) pp t hw1 hlt2 ht hb2'
        rw [← hx]
        refine ⟨?_, ?_, ?_⟩
        · show key ^^^ Z.piecesTable BP t ^^^ Z.piecesTable pp t = _
          rw [xor_key_step2 _ _ _ _ _ hinv, hH2, hH1]
        · exact wfPieces_update _ pp _ hw1
            (setBit_lt _ _ (hw1 pp hlt2) ht)
        · intro q j hq hj
          show (Function.update
            (Function.update pieces BP (clearBit (pieces BP) t)) pp
            (setBit ((Function.update pieces BP (clearBit (pieces BP) t)) pp) t)
              q).testBit j = (pieces q).testBit j
          by_cases hqpp : q = pp
          · subst hqpp
            rw [Function.update_same, testBit_setBit_ne _ t j hj]
            rw [Function.update_noteq hne]
          · rw [Function.update_noteq hqpp]
            by_cases hqbp : q = BP
            · subst hqbp
              rw [Function.update_same,
                testBit_clearBit_ne (pieces BP) t j (hw BP hq) hj]
            · rw [Function.update_noteq hqbp]
  · rw [if_neg hp] at hx
    simp only [Option.some.injEq] at hx
    rw [← hx]
    exact ⟨hinv, hw, fun q j _ _ => rfl⟩

/-- En-passant stage of make_move: preserves the key relation and
well-formedness, and only touches the captured pawn's square. -/
theorem stage_ep (Z : ZTables) (mv : Nat) (side : Side) (pieces : Nat → Nat)
    (key C t : Nat) (pk : (Nat → Nat) × Nat) (hw : wfPieces pieces)
    (hinv : key = hashBoards Z pieces ^^^ C)
    (hx : epStep Z side mv t pieces key = some pk)
    (hfacts : moveIsEnPassant mv = true → ∀ pawnSide square,
      epPawnPiece side = some pawnSide →
      epCaptureSquare side t = some square →
      (pieces pawnSide).testBit square = true ∧ square < 64 ∧ pawnSide < 12) :
    pk.2 = hashBoards Z pk.1 ^^^ C ∧ wfPieces pk.1 ∧
    (∀ q j, q < 12 →
      (moveIsEnPassant mv = true → ∀ square,
        epCaptureSquare side t = some square → j ≠ square) →
      (pk.1 q).testBit j = (pieces q).testBit j) := by
  unfold epStep at hx
  by_cases hep : moveIsEnPassant mv = true
  · rw [if_pos hep] at hx
    cases side with
    | both => simp [epPawnPiece] at hx
    | white =>
      cases hsq : oneBackward t with
      | none =>
        rw [show epCaptureSquare Side.white t = oneBackward t from rfl, hsq] at hx
        simp [epPawnPiece] at hx
      | some sq =>
        rw [show epCaptureSquare Side.white t = oneBackward t from rfl, hsq] at hx
        simp only [epPawnPiece, Option.some_bind, Option.some.injEq] at hx
        obtain ⟨hb1, hs64, hlt1⟩ := hfacts hep BP sq rfl (by
          rw [show epCaptureSquare Side.white t = oneBackward t from rfl, hsq])
        rw [← hx]
        refine ⟨?_, wfPieces_update pieces BP _ hw (clearBit_lt _ _ (hw BP hlt1)), ?_⟩
        · show key ^^^ Z.piecesTable BP sq = _
          rw [xor_key_step1 _ _ _ _ hinv,
            hashBoards_clear Z pieces BP sq hw hlt1 hs64 hb1]
        · intro q j hq hj
          have hjs : j ≠ sq := hj hep sq (by
            rw [show epCaptureSquare Side.white t = oneBackward t from rfl, hsq])
          show (Function.update pieces BP (clearBit (pieces BP) sq) q).testBit j =
            (pieces q).testBit j
          by_cases hqbp : q = BP
          · subst hqbp
            rw [Function.update_same,
              testBit_clearBit_ne (pieces BP) sq j (hw BP hq) hjs]
          · rw [Function.update_noteq hqbp]
    | black =>
      cases hsq : oneForward t with
      | none =>
        rw [show epCaptureSquare Side.black t = oneForward t from rfl, hsq] at hx
        simp [epPawnPiece] at hx
      | some sq =>
        rw [show epCaptureSquare Side.black t = oneForward t from rfl, hsq] at hx
        simp only [epPawnPiece, Option.some_bind, Option.some.injEq] at hx
        obtain ⟨hb1, hs64, hlt1⟩ := hfacts hep WP sq rfl (by
          rw [show epCaptureSquare Side.black t = oneForward t from rfl, hsq])
        rw [← hx]
        refine ⟨?_, wfPieces_update pieces WP _ hw (clearBit_lt _ _ (hw WP hlt1)), ?_⟩
        · show key ^^^ Z.piecesTable WP sq = _
          rw [xor_key_step1 _ _ _ _ hinv,
            hashBoards_clear Z pieces WP sq hw hlt1 hs64 hb1]
        · intro q j hq hj
          have hjs : j ≠ sq := hj hep sq (by
            rw [show epCaptureSquare Side.black t = oneForward t from rfl, hsq])
          show (Function.update pieces WP (clearBit (pieces WP) sq) q).testBit j =
            (pieces q).testBit j
          by_cases hqwp : q = WP
          · subst hqwp
            rw [Function.update_same,
              testBit_clearBit_ne (pieces WP) sq j (hw WP hq) hjs]
          · rw [Function.update_noteq hqwp]
  · rw [if_neg hep] at hx
    simp only [Option.some.injEq] at hx
    rw [← hx]
    exact ⟨hinv, hw, fun q j _ _ => rfl⟩

/-- Double-push stage: the new key carries exactly the epTerm of the new
en-passant square. -/
theorem stage_dp (Z : ZTables) (mv : Nat) (side : Side) (key t : Nat)
    (ek : Nat × Nat) (ht : t < 64)
    (hx : dpStep Z side mv t key = some ek) :
    ek.2 = key ^^^ epTerm Z ek.1 := by
  unfold dpStep at hx
  by_cases hdp : moveIsDoublePush mv = true
  · rw [if_pos hdp] at hx
    cases side with
    | both => simp [epCaptureSquare] at hx
    | white =>
      cases hsq : oneBackward t with
      | none =>
        rw [show epCaptureSquare Side.white t = oneBackward t from rfl, hsq] at hx
        simp at hx
      | some sq =>
        rw [show epCaptureSquare Side.white t = oneBackward t from rfl, hsq] at hx
        simp only [Option.some_bind, Option.some.injEq] at hx
        rw [← hx]
        have hs : sq < 64 := by
          simp only [oneBackward] at hsq
          by_cases h8 : t + 8 ≤ 63
          · rw [if_pos h8] at hsq
            injection hsq with hsq
            omega
          · rw [if_neg h8] at hsq
            cases hsq
        show key ^^^ Z.enPassant sq = key ^^^ epTerm Z sq
        have : epTerm Z sq = Z.enPassant sq := by
          simp only [epTerm, squareAvailable, OFF_BOARD]
          rw [if_pos (by simp; omega)]
        rw [this]
    | black =>
      cases hsq : oneForward t with
      | none =>
        rw [show epCaptureSquare Side.black t = oneForward t from rfl, hsq] at hx
        simp at hx
      | some sq =>
        rw [show epCaptureSquare Side.black t = oneForward t from rfl, hsq] at hx
        simp only [Option.some_bind, Option.some.injEq] at hx
        rw [← hx]
        have hs : sq < 64 := by
          simp only [oneForward] at hsq
          by_cases h8 : 8 ≤ t
          · rw [if_pos h8] at hsq
            injection hsq with hsq
            omega
          · rw [if_neg h8] at hsq
            cases hsq
        show key ^^^ Z.enPassant sq = key ^^^ epTerm Z sq
        have : epTerm Z sq = Z.enPassant sq := by
          simp only [epTerm, squareAvailable, OFF_BOARD]
          rw [if_pos (by simp; omega)]
        rw [this]
  · rw [if_neg hdp] at hx
    simp only [Option.some.injEq] at hx
    rw [← hx]
    show key = key ^^^ epTerm Z OFF_BOARD
    have : epTerm Z OFF_BOARD = 0 := by
      simp [epTerm, squareAvailable]
    rw [this, Nat.xor_zero]

/-- Castling stage: moves the rook and XORs its two squares' keys. -/
theorem stage_castle (Z : ZTables) (mv : Nat) (pieces : Nat → Nat)
    (key C t : Nat) (pk : (Nat → Nat) × Nat) (hw : wfPieces pieces)
    (hinv : key = hashBoards Z pieces ^^^ C)
    (hx : castleStep Z mv t pieces key = some pk)
    (hfacts : moveIsCastling mv = true → ∀ rpc : Nat × Nat × Nat,
      castleRookMove t = some rpc →
      (pieces rpc.1).testBit rpc.2.1 = true ∧
      (pieces rpc.1).testBit rpc.2.2 = false ∧
      rpc.1 < 12 ∧ rpc.2.1 < 64 ∧ rpc.2.2 < 64) :
    pk.2 = hashBoards Z pk.1 ^^^ C ∧ wfPieces pk.1 := by
  unfold castleStep at hx
  by_cases hcl : moveIsCastling mv = true
  · rw [if_pos hcl] at hx
    rcases Option.bind_eq_some.mp hx with ⟨rpc, hm, hx2⟩
    simp only [Option.some.injEq] at hx2
    obtain ⟨hb1, hb2, hlt1, hs1, hs2⟩ := hfacts hcl rpc hm
    rw [← hx2]
    constructor
    · show key ^^^ Z.piecesTable rpc.1 rpc.2.1 ^^^ Z.piecesTable rpc.1 rpc.2.2 = _
      rw [xor_key_step2 _ _ _ _ _ hinv,
        hashBoards_move Z pieces rpc.1 rpc.2.1 rpc.2.2 hw hlt1 hs1 hs2 hb1 hb2]
    · exact wfPieces_update pieces rpc.1 _ hw
        (setBit_lt _ _ (clearBit_lt _ _ (hw rpc.1 hlt1)) hs2)
  · rw [if_neg hcl] at hx
    simp only [Option.some.injEq] at hx
    rw [← hx]
    exact ⟨hinv, hw⟩

/-- The en-passant square sits one rank behind the target. -/
theorem epCaptureSquare_bound (side : Side) (t sq : Nat) (ht : t < 64)
    (h : epCaptureSquare side t = some sq) :
    (sq = t + 8 ∨ sq + 8 = t) ∧ sq ≤ 63 := by
  cases side with
  | white =>
    simp only [epCaptureSquare, oneBackward] at h
    by_cases h8 : t + 8 ≤ 63
    · rw [if_pos h8] at h
      injection h with h
      omega
    · rw [if_neg h8] at h
      cases h
  | black =>
    simp only [epCaptureSquare, oneForward] at h
    by_cases h8 : 8 ≤ t
    · rw [if_pos h8] at h
      injection h with h
      omega
    · rw [if_neg h8] at h
      cases h
  | both => simp [epCaptureSquare] at h

/-- The four castling king targets and their rook relocations. -/
theorem castleRookMove_facts (t : Nat) (rpc : Nat × Nat × Nat)
    (h : castleRookMove t = some rpc) :
    (t = 62 ∧ rpc = (WR, 63, 61)) ∨ (t = 58 ∧ rpc = (WR, 56, 59)) ∨
    (t = 6 ∧ rpc = (BR, 7, 5)) ∨ (t = 2 ∧ rpc = (BR, 0, 1)) := by
  unfold castleRookMove at h
  split at h
  · exact Or.inl ⟨rfl, (Option.some.inj h).symm⟩
  · exact Or.inr (Or.inl ⟨rfl, (Option.some.inj h).symm⟩)
  · exact Or.inr (Or.inr (Or.inl ⟨rfl, (Option.some.inj h).symm⟩))
  · exact Or.inr (Or.inr (Or.inr ⟨rfl, (Option.some.inj h).symm⟩))
  · cases h

/-- Move::promotion returns the raw 16..19 nibble when it is a legal
PromotedPieces value. -/
theorem movePromotion_eq (mv promo : Nat) (h : movePromotion mv = some promo) :
    promo = (mv >>> 16) &&& 0xF := by
  simp only [movePromotion] at h
  by_cases h4 : (mv >>> 16) &&& 0xF ≤ 4
  · rw [if_pos h4] at h
    exact (Option.some.inj h).symm
  · rw [if_neg h4] at h
    cases h

/-- Steps 2..9 of make_move keep the incremental key equal to the canonical
hash of the updated fields (side term still the mover's, the flip comes in
makeMoveApplied). -/
theorem makeMoveCore_key (Z : ZTables) (pos : Position) (mv : Nat)
    (r : (Nat → Nat) × Nat × Nat × Nat)
    (h : makeMoveCore Z pos mv = some r) (hok : moveOk pos mv)
    (hinv : pos.key = hashBoards Z pos.pieces ^^^
      (epTerm Z pos.enPassant ^^^ (Z.castlingRights pos.castlingRights ^^^
        sideTerm Z pos.sideToMove))) :
    r.2.2.2 = hashBoards Z r.1 ^^^
      (epTerm Z r.2.1 ^^^ (Z.castlingRights r.2.2.1 ^^^
        sideTerm Z pos.sideToMove)) ∧
    wfPieces r.1 := by
  obtain ⟨hwf, hplt, hsrc, htgt, hpromoOk, hepOk, hcastleOk⟩ := hok
  simp only [makeMoveCore] at h
  rcases Option.bind_eq_some.mp h with ⟨⟨pieces2, key2⟩, h1, h⟩
  rcases Option.bind_eq_some.mp h with ⟨promo, hpromo, h⟩
  rcases Option.bind_eq_some.mp h with ⟨⟨pieces3, key3⟩, h2, h⟩
  rcases Option.bind_eq_some.mp h with ⟨⟨pieces4, key4⟩, h3, h⟩
  rcases Option.bind_eq_some.mp h with ⟨⟨newEp, key5⟩, h4, h⟩
  rcases Option.bind_eq_some.mp h with ⟨⟨pieces5, key6⟩, h5, h⟩
  simp only [Option.some.injEq] at h
  simp only [] at h1 h2 h3 h4 h5 h
  have hw1 : wfPieces (Function.update pos.pieces (movePiece mv)
      (setBit (clearBit (pos.pieces (movePiece mv)) (moveSource mv))
        (moveTarget mv))) :=
    wfPieces_update _ _ _ hwf
      (setBit_lt _ _ (clearBit_lt _ _ (hwf _ hplt)) (moveTarget_lt mv))
  have hinv1 : pos.key ^^^ Z.piecesTable (movePiece mv) (moveSource mv) ^^^
      Z.piecesTable (movePiece mv) (moveTarget mv) =
      hashBoards Z (Function.update pos.pieces (movePiece mv)
        (setBit (clearBit (pos.pieces (movePiece mv)) (moveSource mv))
          (moveTarget mv))) ^^^
      (epTerm Z pos.enPassant ^^^ (Z.castlingRights pos.castlingRights ^^^
        sideTerm Z pos.sideToMove)) := by
    rw [xor_key_step2 _ _ _ _ _ hinv,
      ← hashBoards_move Z pos.pieces (movePiece mv) (moveSource mv)
        (moveTarget mv) hwf hplt (moveSource_lt mv) (moveTarget_lt mv) hsrc htgt]
  obtain ⟨hC1, hw2, hshape2, hwhite2, hblack2⟩ :=
    stage_capture Z mv pos.sideToMove _ _ _ (moveTarget mv) (pieces2, key2)
      (moveTarget_lt mv) hw1 hinv1 h1
  have hC1' : key2 = hashBoards Z pieces2 ^^^
      (epTerm Z pos.enPassant ^^^ (Z.castlingRights pos.castlingRights ^^^
        sideTerm Z pos.sideToMove)) := hC1
  have hw2' : wfPieces pieces2 := hw2
  have hshape2' : ∀ q, pieces2 q = (Function.update pos.pieces (movePiece mv)
      (setBit (clearBit (pos.pieces (movePiece mv)) (moveSource mv))
        (moveTarget mv))) q ∨
      pieces2 q = clearBit ((Function.update pos.pieces (movePiece mv)
        (setBit (clearBit (pos.pieces (movePiece mv)) (moveSource mv))
          (moveTarget mv))) q) (moveTarget mv) := hshape2
  have hwhite2' : pos.sideToMove = Side.white → ∀ q, q ∉ blackPieceList →
      pieces2 q = (Function.update pos.pieces (movePiece mv)
        (setBit (clearBit (pos.pieces (movePiece mv)) (moveSource mv))
          (moveTarget mv))) q := hwhite2
  have hblack2' : pos.sideToMove = Side.black → ∀ q, q ∉ whitePieceList →
      pieces2 q = (Function.update pos.pieces (movePiece mv)
        (setBit (clearBit (pos.pieces (movePiece mv)) (moveSource mv))
          (moveTarget mv))) q := hblack2
  have hfactsPromo : isPromoting promo = true → ∀ pawnSide pp,
      promoPawnPiece pos.sideToMove = some pawnSide →
      promotedIntoPiece promo pos.sideToMove = some pp →
      (pieces2 pawnSide).testBit (moveTarget mv) = true ∧
      (pieces2 pp).testBit (moveTarget mv) = false ∧
      pp ≠ pawnSide ∧ pawnSide < 12 ∧ pp < 12 := by
    intro hisp pawnSide pp hps hpp
    have hpv : promo = (mv >>> 16) &&& 0xF := movePromotion_eq mv promo hpromo
    rw [hpv] at hisp hpp
    obtain ⟨hsides, helim⟩ := hpromoOk hisp
    rw [hpp] at helim
    simp only [Option.elim] at helim
    obtain ⟨htb, hpplt, hppwp, hppbp⟩ := helim
    rcases hsides with ⟨hsw, hpieceEq⟩ | ⟨hsb, hpieceEq⟩
    · have hpsv : pawnSide = WP := by
        rw [hsw] at hps
        exact (Option.some.inj (by exact hps)).symm
      subst hpsv
      refine ⟨?_, ?_, hppwp, by decide, hpplt⟩
      · rw [hwhite2' hsw WP (by decide), ← hpieceEq, Function.update_same]
        exact testBit_setBit_self _ _ (moveTarget_lt mv)
      · rcases hshape2' pp with hsh | hsh
        · rw [hsh, Function.update_noteq (by rw [hpieceEq]; exact hppwp)]
          exact htb
        · rw [hsh]
          exact testBit_clearBit_self _ _ (moveTarget_lt mv)
    · have hpsv : pawnSide = BP := by
        rw [hsb] at hps
        exact (Option.some.inj (by exact hps)).symm
      subst hpsv
      refine ⟨?_, ?_, hppbp, by decide, hpplt⟩
      · rw [hblack2' hsb BP (by decide), ← hpieceEq, Function.update_same]
        exact testBit_setBit_self _ _ (moveTarget_lt mv)
      · rcases hshape2' pp with hsh | hsh
        · rw [hsh, Function.update_noteq (by rw [hpieceEq]; exact hppbp)]
          exact htb
        · rw [hsh]
          exact testBit_clearBit_self _ _ (moveTarget_lt mv)
  obtain ⟨hC2, hw3, hpres2⟩ :=
    stage_promo Z pos.sideToMove promo _ _ _ (moveTarget mv) (pieces3, key3)
      (moveTarget_lt mv) hw2' hC1' h2 hfactsPromo
  have hC2' : key3 = hashBoards Z pieces3 ^^^
      (epTerm Z pos.enPassant ^^^ (Z.castlingRights pos.castlingRights ^^^
        sideTerm Z pos.sideToMove)) := hC2
  have hw3' : wfPieces pieces3 := hw3
  have hpres2' : ∀ q j, q < 12 → j ≠ moveTarget mv →
      (pieces3 q).testBit j = (pieces2 q).testBit j := hpres2
  have hfactsEp : moveIsEnPassant mv = true → ∀ pawnSide square,
      epPawnPiece pos.sideToMove = some pawnSide →
      epCaptureSquare pos.sideToMove (moveTarget mv) = some square →
      (pieces3 pawnSide).testBit square = true ∧ square < 64 ∧ pawnSide < 12 := by
    intro hisep pawnSide sq hps hsq
    obtain ⟨hsides, helim⟩ := hepOk hisep
    rw [hsq] at helim
    simp only [Option.elim] at helim
    obtain ⟨hb, hle⟩ := epCaptureSquare_bound pos.sideToMove (moveTarget mv) sq
      (moveTarget_lt mv) hsq
    have hsqt : sq ≠ moveTarget mv := by omega
    rcases hsides with ⟨hsw, hpieceEq⟩ | ⟨hsb, hpieceEq⟩
    · have hpsv : pawnSide = BP := by
        rw [hsw] at hps
        exact (Option.some.inj (by exact hps)).symm
      subst hpsv
      have helim' : (pos.pieces BP).testBit sq = true := by
        rw [hsw] at helim
        exact helim
      refine ⟨?_, by omega, by decide⟩
      rw [hpres2' BP sq (by decide) hsqt,
        shape_testBit _ pieces2 (moveTarget mv) hw1 hshape2' BP sq (by decide) hsqt,
        Function.update_noteq (by rw [hpieceEq]; decide)]
      exact helim'
    · have hpsv : pawnSide = WP := by
        rw [hsb] at hps
        exact (Option.some.inj (by exact hps)).symm
      subst hpsv
      have helim' : (pos.pieces WP).testBit sq = true := by
        rw [hsb] at helim
        exact helim
      refine ⟨?_, by omega, by decide⟩
      rw [hpres2' WP sq (by decide) hsqt,
        shape_testBit _ pieces2 (moveTarget mv) hw1 hshape2' WP sq (by decide) hsqt,
        Function.update_noteq (by rw [hpieceEq]; decide)]
      exact helim'
  obtain ⟨hC3, hw4, hpres3⟩ :=
    stage_ep Z mv pos.sideToMove _ _ _ (moveTarget mv) (pieces4, key4)
      hw3' hC2' h3 hfactsEp
  have hC3' : key4 = hashBoards Z pieces4 ^^^
      (epTerm Z pos.enPassant ^^^ (Z.castlingRights pos.castlingRights ^^^
        sideTerm Z pos.sideToMove)) := hC3
  have hw4' : wfPieces pieces4 := hw4
  have hpres3' : ∀ q j, q < 12 →
      (moveIsEnPassant mv = true → ∀ square,
        epCaptureSquare pos.sideToMove (moveTarget mv) = some square →
        j ≠ square) →
      (pieces4 q).testBit j = (pieces3 q).testBit j := hpres3
  have hdp := stage_dp Z mv pos.sideToMove _ (moveTarget mv) (newEp, key5)
    (moveTarget_lt mv) h4
  have hdp' : key5 = (if squareAvailable pos.enPassant then
      key4 ^^^ Z.enPassant pos.enPassant else key4) ^^^ epTerm Z newEp := hdp
  rw [ep_clear_key Z key4 pos.enPassant] at hdp'
  have hinvC : key5 = hashBoards Z pieces4 ^^^
      (epTerm Z newEp ^^^ (Z.castlingRights pos.castlingRights ^^^
        sideTerm Z pos.sideToMove)) := by
    rw [hdp', hC3']
    apply Nat.eq_of_testBit_eq
    intro i
    simp [Nat.testBit_xor, Bool.xor_assoc, Bool.xor_comm, Bool.xor_left_comm]
  have hfactsCastle : moveIsCastling mv = true → ∀ rpc : Nat × Nat × Nat,
      castleRookMove (moveTarget mv) = some rpc →
      (pieces4 rpc.1).testBit rpc.2.1 = true ∧
      (pieces4 rpc.1).testBit rpc.2.2 = false ∧
      rpc.1 < 12 ∧ rpc.2.1 < 64 ∧ rpc.2.2 < 64 := by
    intro hiscl rpc hm
    have helim := hcastleOk hiscl
    rw [hm] at helim
    simp only [Option.elim] at helim
    obtain ⟨hrne, hrb1, hrb2⟩ := helim
    have hchain : ∀ j, j ≠ moveTarget mv →
        (moveIsEnPassant mv = true → ∀ sq,
          epCaptureSquare pos.sideToMove (moveTarget mv) = some sq → j ≠ sq) →
        rpc.1 < 12 →
        (pieces4 rpc.1).testBit j = (pos.pieces rpc.1).testBit j := by
      intro j hjt hjep hr12
      rw [hpres3' rpc.1 j hr12 hjep, hpres2' rpc.1 j hr12 hjt,
        shape_testBit _ pieces2 (moveTarget mv) hw1 hshape2' rpc.1 j hr12 hjt,
        Function.update_noteq hrne]
    rcases castleRookMove_facts (moveTarget mv) rpc hm with
      ⟨ht', hrpc⟩ | ⟨ht', hrpc⟩ | ⟨ht', hrpc⟩ | ⟨ht', hrpc⟩ <;> subst hrpc
    · refine ⟨?_, ?_, by decide, by decide, by decide⟩
      · exact (hchain 63 (by omega) (fun _ sq hsq => by
          obtain ⟨hb, hle⟩ := epCaptureSquare_bound pos.sideToMove (moveTarget mv)
            sq (moveTarget_lt mv) hsq
          omega) (by decide)).trans hrb1
      · exact (hchain 61 (by omega) (fun _ sq hsq => by
          obtain ⟨hb, hle⟩ := epCaptureSquare_bound pos.sideToMove (moveTarget mv)
            sq (moveTarget_lt mv) hsq
          omega) (by decide)).trans hrb2
    · refine ⟨?_, ?_, by decide, by decide, by decide⟩
      · exact (hchain 56 (by omega) (fun _ sq hsq => by
          obtain ⟨hb, hle⟩ := epCaptureSquare_bound pos.sideToMove (moveTarget mv)
            sq (moveTarget_lt mv) hsq
          omega) (by decide)).trans hrb1
      · exact (hchain 59 (by omega) (fun _ sq hsq => by
          obtain ⟨hb, hle⟩ := epCaptureSquare_bound pos.sideToMove (moveTarget mv)
            sq (moveTarget_lt mv) hsq
          omega) (by decide)).trans hrb2
    · refine ⟨?_, ?_, by decide, by decide, by decide⟩
      · exact (hchain 7 (by omega) (fun _ sq hsq => by
          obtain ⟨hb, hle⟩ := epCaptureSquare_bound pos.sideToMove (moveTarget mv)
            sq (moveTarget_lt mv) hsq
          omega) (by decide)).trans hrb1
      · exact (hchain 5 (by omega) (fun _ sq hsq => by
          obtain ⟨hb, hle⟩ := epCaptureSquare_bound pos.sideToMove (moveTarget mv)
            sq (moveTarget_lt mv) hsq
          omega) (by decide)).trans hrb2
    · refine ⟨?_, ?_, by decide, by decide, by decide⟩
      · exact (hchain 0 (by omega) (fun _ sq hsq => by
          obtain ⟨hb, hle⟩ := epCaptureSquare_bound pos.sideToMove (moveTarget mv)
            sq (moveTarget_lt mv) hsq
          omega) (by decide)).trans hrb1
      · exact (hchain 1 (by omega) (fun _ sq hsq => by
          obtain ⟨hb, hle⟩ := epCaptureSquare_bound pos.sideToMove (moveTarget mv)
            sq (moveTarget_lt mv) hsq
          omega) (by decide)).trans hrb2
  obtain ⟨hC4, hw5⟩ :=
    stage_castle Z mv _ _ _ (moveTarget mv) (pieces5, key6) hw4' hinvC h5 hfactsCastle
  have hC4' : key6 = hashBoards Z pieces5 ^^^
      (epTerm Z newEp ^^^ (Z.castlingRights pos.castlingRights ^^^
        sideTerm Z pos.sideToMove)) := hC4
  have hw5' : wfPieces pieces5 := hw5
  rw [← h]
  refine ⟨?_, hw5'⟩
  show key6 ^^^ Z.castlingRights pos.castlingRights ^^^
      Z.castlingRights (pos.castlingRights &&& castlingRightsAt (moveSource mv)
        &&& castlingRightsAt (moveTarget mv)) =
    hashBoards Z pieces5 ^^^
      (epTerm Z newEp ^^^
        (Z.castlingRights (pos.castlingRights &&& castlingRightsAt (moveSource mv)
          &&& castlingRightsAt (moveTarget mv)) ^^^ sideTerm Z pos.sideToMove))
  rw [hC4']
  apply Nat.eq_of_testBit_eq
  intro i
  simp [Nat.testBit_xor, Bool.xor_assoc, Bool.xor_comm, Bool.xor_left_comm]

/-- A completed make_move application leaves the incremental key equal to a
full rehash of the applied position. -/
theorem makeMoveApplied_key (Z : ZTables) (pos0 : Position) (mv : Nat)
    (t : Position) (h : makeMoveApplied Z pos0 mv = some t)
    (hok : moveOk pos0 mv) (hkey : pos0.key = rehash Z pos0) :
    t.key = rehash Z t := by
  simp only [makeMoveApplied] at h
  rcases Option.bind_eq_some.mp h with ⟨r, hcore, h⟩
  rcases Option.bind_eq_some.mp h with ⟨newSide, henemy, h⟩
  simp only [Option.pure_def, Option.some.injEq] at h
  have hok' : moveOk (snapshotBoard pos0) mv := hok
  have hkey' : (snapshotBoard pos0).key = hashBoards Z (snapshotBoard pos0).pieces
      ^^^ (epTerm Z (snapshotBoard pos0).enPassant ^^^
        (Z.castlingRights (snapshotBoard pos0).castlingRights ^^^
          sideTerm Z (snapshotBoard pos0).sideToMove)) := by
    show pos0.key = hashBoards Z pos0.pieces ^^^ (epTerm Z pos0.enPassant ^^^
      (Z.castlingRights pos0.castlingRights ^^^ sideTerm Z pos0.sideToMove))
    rw [hkey]
    show hashPosition Z pos0.pieces pos0.sideToMove pos0.enPassant
      pos0.castlingRights = _
    rw [hashPosition_eq]
    apply Nat.eq_of_testBit_eq
    intro i
    simp [Nat.testBit_xor, Bool.xor_assoc, Bool.xor_comm, Bool.xor_left_comm]
  obtain ⟨hcoreKey, hcoreWf⟩ := makeMoveCore_key Z (snapshotBoard pos0) mv r
    hcore hok' hkey'
  have hflip : sideTerm Z newSide = sideTerm Z pos0.sideToMove ^^^ Z.sideKey :=
    sideTerm_enemy Z pos0.sideToMove newSide henemy
  rw [← h]
  show r.2.2.2 ^^^ Z.sideKey = rehash Z _
  show r.2.2.2 ^^^ Z.sideKey =
    hashPosition Z r.1 newSide r.2.1 r.2.2.1
  have hcoreKey' : r.2.2.2 = hashBoards Z r.1 ^^^ (epTerm Z r.2.1 ^^^
      (Z.castlingRights r.2.2.1 ^^^ sideTerm Z pos0.sideToMove)) := hcoreKey
  rw [hashPosition_eq, hcoreKey', hflip]
  apply Nat.eq_of_testBit_eq
  intro i
  simp [Nat.testBit_xor, Bool.xor_assoc, Bool.xor_comm, Bool.xor_left_comm]

/-- C2: load_position installs a from-scratch hash_position key, and a
make_move(AllMoves) call that returns true leaves the incrementally updated
key equal to hash_position recomputed from scratch on the new position;
moveOk captures the board/move well-formedness the generator maintains. -/
theorem zobrist_incremental (Z : ZTables) (p pos : Position) (fen : FenParts)
    (mv : Nat) (hok : moveOk pos mv) (hkey : pos.key = rehash Z pos) :
    (loadPosition Z p fen).key =
      hashPosition Z fen.positions fen.sideToMove fen.enPassant
        fen.castlingRights ∧
    ((makeMove Z pos mv .allMoves).map Prod.snd = some true →
      (makeMove Z pos mv .allMoves).map (fun r => r.1.key) =
        (makeMove Z pos mv .allMoves).map (fun r => rehash Z r.1)) := by
  refine ⟨rfl, ?_⟩
  intro htrue
  cases hm : makeMove Z pos mv .allMoves with
  | none => rw [hm] at htrue; cases htrue
  | some r =>
    rw [hm] at htrue
    simp only [Option.map_some', Option.some.injEq] at htrue
    obtain ⟨t, ht, k, hk, hge, hif⟩ := makeMoveAll_spec Z pos mv r hm
    by_cases hatt : isSquareAttacked t (trailingZeros (t.pieces k)) t.sideToMove
    · rw [if_pos hatt] at hif
      rw [hif] at htrue
      cases htrue
    · rw [if_neg hatt] at hif
      subst hif
      simp only [Option.map_some', Option.some.injEq]
      exact makeMoveApplied_key Z pos mv t ht hok hkey

/-- Witness for C2: a rook lift on the harness position, with the key primed
by a full rehash. -/
theorem zobrist_incremental_witness :
    (loadPosition wZ wPosRook wFen).key =
      hashPosition wZ wFen.positions wFen.sideToMove wFen.enPassant
        wFen.castlingRights ∧
    ((makeMove wZ wPosRookH wMvQuiet .allMoves).map Prod.snd = some true →
      (makeMove wZ wPosRookH wMvQuiet .allMoves).map (fun r => r.1.key) =
        (makeMove wZ wPosRookH wMvQuiet .allMoves).map
          (fun r => rehash wZ r.1)) :=
  zobrist_incremental wZ wPosRook wPosRookH wFen wMvQuiet
    ⟨by show ∀ p, p < 12 → wPosRookH.pieces p < 2 ^ 64; decide,
     by decide, by decide, by decide,
     fun h => absurd h (by decide), fun h => absurd h (by decide),
     fun h => absurd h (by decide)⟩
    (by decide)

end Milky
